import Mathlib

/-!
Verification of the koekoek timeline layout engine.

This file gives a shallow embedding of the layout/packing engine
(`timeline_core.py`, `timeline_horizontal.py`, and the client-side layout
code emitted by `timeline_vertical.py`) and proves the testable properties
of the specification against it.

Modelling conventions:
* a Python `datetime` is an `Int` (an instant on a linear time line);
  `datetime.max` is the top element of `WithTop Int`, so comparisons with
  `datetime.max` behave exactly as in Python (every instant is `≤` it);
* `timedelta(days=1)` is the constant `oneDay`;
* Python's stable `sorted` / JS's stable `Array.prototype.sort` are modelled
  by a stable insertion sort `sortBy`; Python tuple keys are modelled by
  lexicographic product orders (`Lex`), which is exactly Python's tuple
  comparison;
* Python dicts keyed by the unique event ids are modelled by positional
  lookup (`findIdx?`) into the slot list; ingestion assigns `event_id`
  from the distinct row ordinals, so the id-keyed dict lookup and the
  positional lookup coincide.
-/

namespace Koekoek

/-- A Python `datetime` value: a finite instant (`Int`) or `datetime.max`
(the top element). -/
abbrev DT := WithTop Int

/-- `timedelta(days=1)` as a fixed span on the instant axis (milliseconds,
matching the `start_ms` scale used by the vertical layout payload). -/
def oneDay : Int := 86400000

/-- `TimelineEvent` from `timeline_core.py`: one normalized row. -/
structure TimelineEvent where
  event_id : Nat
  description : String
  entities : List String
  date_label : String
  time_label : String
  start_dt : Option Int
  end_dt : Option Int
  certain : Bool
  verified : Bool
  sources : List String
deriving DecidableEq, Repr

/-- `normalize_end_dt` from `timeline_core.py`: advance the end by one day
when it parses earlier than the start (overnight-span assumption). -/
def normalize_end_dt (start_dt : Option Int) (end_dt : Option Int) : Option Int :=
  match start_dt, end_dt with
  | none, e => e
  | _, none => none
  | some s, some t => if t < s then some (t + oneDay) else some t

/-- `is_range` from `timeline_core.py`. -/
def is_range (e : TimelineEvent) : Bool :=
  e.start_dt.isSome && e.end_dt.isSome && (e.end_dt != e.start_dt)

/-- `overlaps` from `timeline_core.py`: closed-interval, boundary-inclusive
overlap test. -/
def overlaps (a_start a_end b_start b_end : DT) : Bool :=
  decide (a_start ≤ b_end) && decide (b_start ≤ a_end)

/-- `effective_end_dt` from `timeline_core.py`: `datetime.max` when the
start is unresolved, else the end if present, else the start. -/
def effective_end_dt (e : TimelineEvent) : DT :=
  match e.start_dt with
  | none => ⊤
  | some s =>
    match e.end_dt with
    | none => (s : DT)
    | some t => (t : DT)

/-- `event.start_dt or datetime.max` (a `datetime` is always truthy, so the
Python expression returns the start when present, else `datetime.max`). -/
def startTop (e : TimelineEvent) : DT :=
  match e.start_dt with
  | none => ⊤
  | some s => (s : DT)

/-- The start instant of an event known to have one (the layout code only
reads `start_dt` after filtering out events without a start, so the default
is never used). -/
def startD (e : TimelineEvent) : Int := e.start_dt.getD 0

/-- `estimate_card_width` from `timeline_core.py`. -/
def estimate_card_width (text : String) (is_range_event : Bool) : Int :=
  let base_width : Int := 140 + (text.length : Int) * 5
  let min_width : Int := 180
  let max_width : Int := 320
  let width := max min_width (min base_width max_width)
  if is_range_event then max width min_width else width

/-- Stable insertion of `a` into `l`: `a` goes in front of the first element
it compares `le` to, so elements equal under `le` keep their original
relative order (the stability contract of Python's and JS's sorts). -/
def insertSorted (le : α → α → Bool) (a : α) : List α → List α
  | [] => [a]
  | b :: bs => if le a b then a :: b :: bs else b :: insertSorted le a bs

/-- Stable sort modelling Python's `sorted` / JS's `Array.prototype.sort`. -/
def sortBy (le : α → α → Bool) : List α → List α
  | [] => []
  | x :: xs => insertSorted le x (sortBy le xs)

/-- The Python sort key `(e.start_dt, e.end_dt is None, e.event_id)` used by
`timeline_horizontal.py` to order the timed events (tuple comparison is
lexicographic; `False < True`, so events with an end sort first at equal
start). The list is filtered to events with a start before sorting, so
`startD` reads a present start. -/
def hKey (e : TimelineEvent) : Lex (Int × Lex (Bool × Nat)) :=
  toLex (startD e, toLex (e.end_dt.isNone, e.event_id))

def hLe (a b : TimelineEvent) : Bool := decide (hKey a ≤ hKey b)

/-- The Python sort key of `sorted_events` in `timeline_core.py`:
`(event.start_dt is None, event.start_dt or datetime.max, is_instant,
event.event_id)`. -/
def sKey (e : TimelineEvent) : Lex (Bool × Lex (DT × Lex (Bool × Nat))) :=
  toLex (e.start_dt.isNone, toLex (startTop e, toLex (!(is_range e), e.event_id)))

def sLe (a b : TimelineEvent) : Bool := decide (sKey a ≤ sKey b)

/-- `sorted_events` from `timeline_core.py`. -/
def sorted_events (events : List TimelineEvent) : List TimelineEvent :=
  sortBy sLe events

/-- Content of `group_events_by_entity(events)[entity]`: each event appears
once per occurrence of `entity` in its entity list, in input order. -/
def entity_list_of (events : List TimelineEvent) (entity : String) : List TimelineEvent :=
  events.flatMap (fun e => (e.entities.filter (fun x => x == entity)).map (fun _ => e))

/-- The fixed inter-card gap of the horizontal layout. -/
def gap : Int := 24

/-- The card label text `f"{e.date_label} {e.time_label} {e.description}"`. -/
def card_text (e : TimelineEvent) : String :=
  e.date_label ++ " " ++ e.time_label ++ " " ++ e.description

/-- `timed_events` of `generate_horizontal_timeline`: events with a start,
sorted by `(start_dt, end_dt is None, event_id)`. -/
def timed_events (events : List TimelineEvent) : List TimelineEvent :=
  sortBy hLe (events.filter (fun e => e.start_dt.isSome))

/-- `slot_width`: provisional width of each slot from its label text. -/
def slot_widths (events : List TimelineEvent) : List Int :=
  (timed_events events).map (fun e => estimate_card_width (card_text e) (is_range e))

/-- The packing loop `x_start[i] = x; x += slot_width[i] + gap`. -/
def xStartsFrom (x : Int) : List Int → List Int
  | [] => []
  | w :: ws => x :: xStartsFrom (x + w + gap) ws

/-- `x_start`: packed X start of each slot. -/
def x_starts (events : List TimelineEvent) : List Int :=
  xStartsFrom 0 (slot_widths events)

/-- The body of the `range_max_slot` scan over the enumerated slot list:
skip events without a start, take the max slot of events whose start lies
within `[rs, re']`. -/
def rmsStep (rs re' : Int) (m : Nat) (p : Nat × TimelineEvent) : Nat :=
  match p.2.start_dt with
  | none => m
  | some s => if rs ≤ s ∧ s ≤ re' then max m p.1 else m

/-- `range_max_slot` for the event at slot `i`: the furthest slot whose
event's start falls within the range `[start, end]` of that event (scanning
all timed events; events without a start are skipped by the loop, and only
range events — which have both instants — are ever queried, so the
fall-through arms returning `i` are never reached on the queried slots). -/
def range_max_slot (events : List TimelineEvent) (i : Nat) : Nat :=
  match (timed_events events)[i]? with
  | none => i
  | some r =>
    match r.start_dt, r.end_dt with
    | some rs, some re' => ((timed_events events).enum).foldl (rmsStep rs re') i
    | _, _ => i

/-- The right edge `x_start[s] + slot_width[s]` of slot `s`. -/
def right_edge (events : List TimelineEvent) (s : Nat) : Int :=
  (x_starts events).getD s 0 + (slot_widths events).getD s 0

/-- `event_x[e.event_id]` for the event at slot `i`. -/
def event_x (events : List TimelineEvent) (i : Nat) : Int :=
  (x_starts events).getD i 0

/-- `event_w[e.event_id]` for the event at slot `i`: the estimated width,
widened for a range event to reach the right edge of its furthest
contained slot. -/
def event_w (events : List TimelineEvent) (i : Nat) : Int :=
  match (timed_events events)[i]? with
  | none => 0
  | some e =>
    let w := (slot_widths events).getD i 0
    if is_range e then
      max w (right_edge events (range_max_slot events i) - event_x events i)
    else w

/-- The slot of an event id: the id-keyed dict `slot_of` is modelled by
positional lookup (ids are the distinct row ordinals, so the two agree). -/
def slot_of_id (events : List TimelineEvent) (id : Nat) : Option Nat :=
  (timed_events events).findIdx? (fun t => t.event_id == id)

/-- One card dict of the per-entity layout: `{event, x, width, is_range,
end_dt}` with `end_dt = event.end_dt or event.start_dt` (a `datetime` is
always truthy, so this is the end when present, else the start). -/
structure Card where
  event : TimelineEvent
  x : Int
  width : Int
  is_range : Bool
  end_dt : Int
deriving DecidableEq, Repr

/-- Build the card for a timed event: `event_x.get(id, 0)` and
`event_w.get(id, estimate_card_width(...))`. -/
def mkCard (events : List TimelineEvent) (e : TimelineEvent) : Card :=
  let ir := is_range e
  let x := match slot_of_id events e.event_id with
    | some i => event_x events i
    | none => 0
  let w := match slot_of_id events e.event_id with
    | some i => event_w events i
    | none => estimate_card_width (card_text e) ir
  { event := e, x := x, width := w, is_range := ir, end_dt := e.end_dt.getD (startD e) }

/-- The first-fit acceptance test of the per-entity stacking loop: a subrow
accepts the candidate unless its last-placed card time-overlaps it. The
guard `if last and event.start_dt and last["event"].start_dt` skips the
overlap test (and accepts) when any of those is missing. -/
def rowAccepts (row : List Card) (e : TimelineEvent) : Bool :=
  match row.getLast? with
  | none => true
  | some last =>
    match e.start_dt, last.event.start_dt with
    | some ts, some ls =>
      let le' := last.end_dt
      let te := e.end_dt.getD ts
      !(overlaps (ts : DT) (te : DT) (ls : DT) (le' : DT))
    | _, _ => true

/-- First-fit placement: append to the first subrow that accepts the card,
else open a new subrow at the end. -/
def placeFF : List (List Card) → Card → List (List Card)
  | [], c => [[c]]
  | row :: rest, c =>
    if rowAccepts row c.event then (row ++ [c]) :: rest
    else row :: placeFF rest c

/-- One iteration of the per-entity loop: events without a start are
skipped (`continue`), others are placed first-fit. -/
def placeStep (events : List TimelineEvent) (rows : List (List Card)) (e : TimelineEvent) :
    List (List Card) :=
  match e.start_dt with
  | none => rows
  | some _ => placeFF rows (mkCard events e)

def cardLe (a b : Card) : Bool := decide (a.x ≤ b.x)

/-- `layout[entity]`: the subrows of one entity lane — events of the lane in
`sorted_events` order placed first-fit, then each subrow ordered by `x`. -/
def hLayoutFor (events : List TimelineEvent) (entity : String) : List (List Card) :=
  (((sorted_events (entity_list_of events entity)).foldl (placeStep events) []).map
    (sortBy cardLe))

/-- The result of `generate_horizontal_timeline` (geometry only; HTML
serialization is presentation). -/
structure HResult where
  timed : List TimelineEvent
  layoutOf : String → List (List Card)
  maxWidth : Int

/-- `generate_horizontal_timeline`: `None` models the raised `ValueError`
when no event has a valid start time. -/
def generate_horizontal_timeline (events : List TimelineEvent) : Option HResult :=
  if (timed_events events).isEmpty then none
  else
    some
      { timed := timed_events events
        layoutOf := hLayoutFor events
        maxWidth :=
          ((x_starts events).getLast?.getD 0) + ((slot_widths events).getLast?.getD 0) }

/-- Exact-rational model of `int((24.0 + index * 137.508) % 360)`: the base
hue and the golden-angle step are scaled by 1000 so the arithmetic is exact
and the final division by 1000 is the `int(...)` truncation. -/
def hueOf (index : Nat) : Nat := ((24000 + index * 137508) % 360000) / 1000

def hslStr (h : Nat) : String := "hsl(" ++ toString h ++ ", 60%, 68%)"

/-- The seen-set loop shared by `build_entity_colors` and the
`uniqueStarts` discovery: append a value the first time it is seen. -/
def firstSeenFrom [DecidableEq α] (seen : List α) : List α → List α
  | [] => []
  | a :: rest =>
    if a ∈ seen then firstSeenFrom seen rest
    else a :: firstSeenFrom (a :: seen) rest

/-- Keep the first occurrence of each value, preserving order. -/
def firstSeen [DecidableEq α] (l : List α) : List α := firstSeenFrom [] l

/-- Python's string comparison (lexicographic on code points), as the
lexicographic order on the character lists. -/
def strLe (a b : String) : Bool := decide (a.data ≤ b.data)

/-- `sorted(..., key=lambda s: s.casefold())` with the case-folding key
`cf` kept abstract: Python's full-Unicode `str.casefold` is an opaque
`String → String` function here, and the color-assignment properties are
proved for every choice of `cf`, hence in particular for the real one. -/
def casefoldLeBy (cf : String → String) (a b : String) : Bool :=
  decide ((cf a).data ≤ (cf b).data)

/-- Lower-casing of one character: the ASCII fragment of `str.casefold`,
used only to evaluate concrete ASCII inputs (on which it agrees with the
full Unicode fold). -/
def lowerChar (c : Char) : Char :=
  if 65 ≤ c.toNat ∧ c.toNat ≤ 90 then Char.ofNat (c.toNat + 32) else c

/-- The ASCII fragment of Python's `str.casefold`, for concrete ASCII
inputs; the theorems about `build_entity_colors_by` are parametric in the
fold and so do not depend on this fragment. -/
def casefold (s : String) : String := ⟨s.data.map lowerChar⟩

/-- Compare the concretely casefolded keys (ASCII instance). -/
def casefoldLe : String → String → Bool := casefoldLeBy casefold

/-- The enumeration loop of `build_entity_colors`. -/
def colorAssign : List String → Nat → List (String × String)
  | [], _ => []
  | x :: rest, index => (x, hslStr (hueOf index)) :: colorAssign rest (index + 1)

/-- `build_entity_colors` from `timeline_core.py` with the case-folding key
`cf` abstract: sort case-insensitively (stable), dedupe by first
occurrence, then assign golden-angle hues by position. -/
def build_entity_colors_by (cf : String → String) (entities : List String) :
    List (String × String) :=
  colorAssign (firstSeen (sortBy (casefoldLeBy cf) entities)) 0

/-- `build_entity_colors` from `timeline_core.py`, as the association list
the insertion-ordered dict holds (concrete ASCII fold instance, for
evaluation on concrete inputs). -/
def build_entity_colors (entities : List String) : List (String × String) :=
  build_entity_colors_by casefold entities

/-- Reading `colors[entity]` from the dict (keys are unique by
construction, so first match is the dict entry). -/
def dictFind (d : List (String × String)) (k : String) : Option String :=
  (d.find? (fun p => p.1 == k)).map Prod.snd

/-- One event of the vertical layout's client-side payload (the fields the
layout algorithm reads: `id`, `start_ms`, `end_ms`, `is_range`). -/
structure VEvent where
  id : String
  start_ms : Int
  end_ms : Int
  is_range : Bool
deriving DecidableEq, Repr

/-- The JS comparator of `layout` as a non-strict order: `start_ms`
ascending, ranges before points at equal start, then `id.localeCompare`
(modelled by code-point order). -/
def jsLe (a b : VEvent) : Bool :=
  if a.start_ms = b.start_ms then
    if a.is_range = b.is_range then strLe a.id b.id
    else a.is_range
  else decide (a.start_ms < b.start_ms)

/-- `evs`: the payload events in layout order. -/
def vEvs (input : List VEvent) : List VEvent := sortBy jsLe input

/-- `uniqueStarts`: first-encounter distinct `start_ms` values, then sorted
ascending. -/
def vUniqueStarts (input : List VEvent) : List Int :=
  sortBy (fun a b => decide (a ≤ b)) (firstSeen ((vEvs input).map (fun e => e.start_ms)))

/-- `headerH + padH + n*itemH + (n-1)*itemGap` with the constants of the
vertical layout (`headerH = 34`, `itemH = 76`, `itemGap = 10`, `padH = 20`). -/
def stackH (n : Nat) : Int := 34 + 20 + (n : Int) * 76 + ((n : Int) - 1) * 10

/-- `slotH`: per-slot row height — the default `cfg.rowH = 98`, raised to
the stacked-block height when `n > 0` point events share the slot's start. -/
def vSlotHs (input : List VEvent) : List Int :=
  (vUniqueStarts input).map (fun s =>
    if 0 < (vEvs input).countP (fun e => !e.is_range && e.start_ms == s) then
      max 98 (stackH ((vEvs input).countP (fun e => !e.is_range && e.start_ms == s)))
    else 98)

/-- One step of the wrapper-column greedy: reuse the first column whose
tracked end is strictly before the range's start (`r.start_ms > colEnd[i]`),
updating it to `max(colEnd[i], r.end_ms)`; else push a new column. -/
def colPlace : List Int → VEvent → List Int
  | [], r => [r.end_ms]
  | v :: vs, r => if v < r.start_ms then max v r.end_ms :: vs else v :: colPlace vs r

/-- The JS comparator of `rangesSorted`: `(start_ms, end_ms)` ascending. -/
def vRangeKey (e : VEvent) : Lex (Int × Int) := toLex (e.start_ms, e.end_ms)

def vRangeLe (a b : VEvent) : Bool := decide (vRangeKey a ≤ vRangeKey b)

/-- `rangesSorted`: the range events sorted by `(start_ms, end_ms)`. -/
def vRangesSorted (input : List VEvent) : List VEvent :=
  sortBy vRangeLe ((vEvs input).filter (fun e => e.is_range))

/-- `colEnd` after the greedy loop. -/
def colEnds (input : List VEvent) : List Int :=
  (vRangesSorted input).foldl colPlace []

/-- The number of wrapper columns the greedy assignment produces. -/
def numWrapCols (input : List VEvent) : Nat := (colEnds input).length

/-- The number of ranges in `rs` simultaneously open at instant `t`
(boundary-inclusive). -/
def openCount (rs : List VEvent) (t : Int) : Nat :=
  rs.countP (fun r => decide (r.start_ms ≤ t) && decide (t ≤ r.end_ms))

/-- Normalization invariant of §3: when both instants are resolved the end
is not earlier than the start (`normalize_end_dt` restores this for
overnight rows, both instants being derived from the same calendar date). -/
def wfE (e : TimelineEvent) : Bool :=
  match e.start_dt, e.end_dt with
  | some s, some t => decide (s ≤ t)
  | _, _ => true

/-- The same invariant for a payload event of the vertical layout. -/
def vWf (e : VEvent) : Bool := decide (e.start_ms ≤ e.end_ms)

/-- The sort key the claimed packing-monotonicity property uses:
`(start, isRange-before-point, id)` — note `isRange`, not "has an end". -/
def claimKey (e : TimelineEvent) : Lex (Int × Lex (Bool × Nat)) :=
  toLex (startD e, toLex (!(is_range e), e.event_id))

/-- The ghost state of the wrapper-column greedy: each column keeps its
tracked end together with the ranges assigned to it, in placement order. -/
def gPlace : List (Int × List VEvent) → VEvent → List (Int × List VEvent)
  | [], r => [(r.end_ms, [r])]
  | (v, c) :: cs, r =>
    if v < r.start_ms then (max v r.end_ms, c ++ [r]) :: cs
    else (v, c) :: gPlace cs r

/-- Verification invariant on a placed card: its event carries a start and
the stored `end_dt` is the event's effective end, not before the start. -/
def GoodCard (c : Card) : Prop :=
  ∃ s : Int, c.event.start_dt = some s ∧ c.end_dt = c.event.end_dt.getD s ∧ s ≤ c.end_dt

/-- Verification invariant on the subrows under construction: rows are
nonempty, each row is chained strictly in time (stored end before next
start), and every card is good. -/
def RowsOk (rows : List (List Card)) : Prop :=
  ∀ row ∈ rows, row ≠ [] ∧
    row.Pairwise (fun a b => a.end_dt < startD b.event) ∧
    ∀ c ∈ row, GoodCard c

/-- The greedy wrapper-column invariant: the columns partition the
processed ranges, each column records its max end, each column is strictly
chained in time, and some instant already witnesses the current column
count. -/
def colInv (done : List VEvent) (g : List (Int × List VEvent)) : Prop :=
  ((g.map Prod.snd).flatten).Perm done ∧
  (∀ p ∈ g, (∃ q ∈ p.2, q.end_ms = p.1) ∧ (∀ q ∈ p.2, q.end_ms ≤ p.1)) ∧
  (∀ p ∈ g, p.2.Pairwise (fun a b => a.end_ms < b.start_ms)) ∧
  (∃ t : Int, g.length ≤ openCount done t)

theorem insertSorted_perm (le : α → α → Bool) (a : α) :
    ∀ l : List α, (insertSorted le a l).Perm (a :: l)
  | [] => List.Perm.refl _
  | b :: bs => by
    unfold insertSorted
    by_cases h : le a b = true
    · simp [h]
    · simp only [h, if_false]
      exact ((insertSorted_perm le a bs).cons b).trans (List.Perm.swap a b bs)

theorem sortBy_perm (le : α → α → Bool) :
    ∀ l : List α, (sortBy le l).Perm l
  | [] => List.Perm.refl _
  | x :: xs =>
    (insertSorted_perm le x (sortBy le xs)).trans ((sortBy_perm le xs).cons x)

theorem mem_sortBy {le : α → α → Bool} {a : α} {l : List α} :
    a ∈ sortBy le l ↔ a ∈ l :=
  (sortBy_perm le l).mem_iff

theorem pairwise_insertSorted (le : α → α → Bool)
    (total : ∀ a b, le a b = true ∨ le b a = true)
    (tr : ∀ a b c, le a b = true → le b c = true → le a c = true) (a : α) :
    ∀ l : List α, l.Pairwise (fun x y => le x y = true) →
      (insertSorted le a l).Pairwise (fun x y => le x y = true)
  | [], _ => List.pairwise_singleton _ _
  | b :: bs, h => by
    rcases List.pairwise_cons.mp h with ⟨hb, hbs⟩
    unfold insertSorted
    by_cases hab : le a b = true
    · simp only [hab, if_true]
      refine List.pairwise_cons.mpr ⟨?_, h⟩
      intro y hy
      rcases List.mem_cons.mp hy with rfl | hy
      · exact hab
      · exact tr a b y hab (hb y hy)
    · simp only [hab, if_false]
      refine List.pairwise_cons.mpr ⟨?_, pairwise_insertSorted le total tr a bs hbs⟩
      intro y hy
      rcases List.mem_cons.mp ((insertSorted_perm le a bs).mem_iff.mp hy) with rfl | hy
      · rcases total y b with h1 | h1
        · exact absurd h1 hab
        · exact h1
      · exact hb y hy

theorem pairwise_sortBy (le : α → α → Bool)
    (total : ∀ a b, le a b = true ∨ le b a = true)
    (tr : ∀ a b c, le a b = true → le b c = true → le a c = true) :
    ∀ l : List α, (sortBy le l).Pairwise (fun x y => le x y = true)
  | [] => List.Pairwise.nil
  | x :: xs =>
    pairwise_insertSorted le total tr x (sortBy le xs) (pairwise_sortBy le total tr xs)

/-- Two sorted lists that are permutations of each other and whose elements
admit no nontrivial `le`-ties are equal (the sorted order is unique). -/
theorem sorted_perm_eq (le : α → α → Bool) :
    ∀ {l₁ l₂ : List α}, l₁.Perm l₂ →
      l₁.Pairwise (fun x y => le x y = true) →
      l₂.Pairwise (fun x y => le x y = true) →
      (∀ a ∈ l₁, ∀ b ∈ l₁, le a b = true → le b a = true → a = b) →
      l₁ = l₂
  | [], l₂, hp, _, _, _ => (hp.nil_eq).symm ▸ rfl
  | a :: t₁, [], hp, _, _, _ => absurd hp.symm (by simp [List.Perm])
  | a :: t₁, b :: t₂, hp, h₁, h₂, anti => by
    rcases List.pairwise_cons.mp h₁ with ⟨ha, ht₁⟩
    rcases List.pairwise_cons.mp h₂ with ⟨hb, ht₂⟩
    have hab : a = b := by
      by_cases h : a = b
      · exact h
      · have hbmem : b ∈ a :: t₁ := hp.symm.subset (by simp)
        have hamem : a ∈ b :: t₂ := hp.subset (by simp)
        have hb₁ : b ∈ t₁ := by
          rcases hbmem with _ | hbmem
          · exact absurd rfl (fun hh => h hh.symm)
          · assumption
        have ha₂ : a ∈ t₂ := by
          rcases hamem with _ | hamem
          · exact absurd rfl h
          · assumption
        exact anti a (by simp) b (List.mem_cons_of_mem _ hb₁) (ha b hb₁) (hb a ha₂)
    subst hab
    have htp : t₁.Perm t₂ := hp.cons_inv
    have : t₁ = t₂ :=
      sorted_perm_eq le htp ht₁ ht₂
        (fun x hx y hy => anti x (List.mem_cons_of_mem _ hx) y (List.mem_cons_of_mem _ hy))
    rw [this]

/-- `sortBy` is a function of the input's multiset when `le` is a total
preorder with no ties between distinct elements of the input. -/
theorem sortBy_eq_of_perm (le : α → α → Bool)
    (total : ∀ a b, le a b = true ∨ le b a = true)
    (tr : ∀ a b c, le a b = true → le b c = true → le a c = true)
    {l₁ l₂ : List α} (hp : l₁.Perm l₂)
    (anti : ∀ a ∈ l₁, ∀ b ∈ l₁, le a b = true → le b a = true → a = b) :
    sortBy le l₁ = sortBy le l₂ := by
  refine sorted_perm_eq le ?_ (pairwise_sortBy le total tr l₁) (pairwise_sortBy le total tr l₂) ?_
  · exact (sortBy_perm le l₁).trans (hp.trans (sortBy_perm le l₂).symm)
  · intro a ha b hb
    exact anti a ((sortBy_perm le l₁).subset ha) b ((sortBy_perm le l₁).subset hb)


/-- C6: `normalize_end_dt` advances the stored end by exactly one day
precisely when both instants are resolved and the parsed end is earlier
than the parsed start; in every other case (start or end absent, or end
not earlier) the end is returned unchanged. -/
theorem c6_normalize_end (s? e? : Option Int) :
    (∀ s t : Int, s? = some s → e? = some t → t < s →
      normalize_end_dt s? e? = some (t + oneDay)) ∧
    (∀ s t : Int, s? = some s → e? = some t → s ≤ t → normalize_end_dt s? e? = e?) ∧
    (s? = none → normalize_end_dt s? e? = e?) ∧
    (e? = none → normalize_end_dt s? e? = e?) := by
  refine ⟨?_, ?_, ?_, ?_⟩
  · rintro s t rfl rfl hlt
    simp [normalize_end_dt, hlt]
  · rintro s t rfl rfl hle
    simp [normalize_end_dt, not_lt.mpr hle]
  · rintro rfl
    cases e? <;> simp [normalize_end_dt]
  · rintro rfl
    cases s? <;> simp [normalize_end_dt]

theorem c6_normalize_end_witness :
    normalize_end_dt (some 600) (some 300) = some (300 + oneDay) ∧
    normalize_end_dt (some 300) (some 600) = some 600 ∧
    normalize_end_dt none (some 600) = some 600 :=
  ⟨(c6_normalize_end (some 600) (some 300)).1 600 300 rfl rfl (by decide),
   (c6_normalize_end (some 300) (some 600)).2.1 300 600 rfl rfl (by decide),
   (c6_normalize_end none (some 600)).2.2.1 rfl⟩

/-- C10: for an event with no resolvable start, `effective_end_dt` returns
`datetime.max` — not the event's start nor any finite instant — so under
the boundary-inclusive overlap test such an event compares as overlapping
every well-formed event that starts at or after any start instant one could
ascribe to it. -/
theorem c10_effective_end_none (e : TimelineEvent) (h : e.start_dt = none) :
    effective_end_dt e = ⊤ ∧
    (∀ t : Int, effective_end_dt e ≠ (t : DT)) ∧
    (∀ (b : TimelineEvent) (aS : DT) (s : Int),
      b.start_dt = some s → wfE b = true → aS ≤ (s : DT) →
      overlaps aS (effective_end_dt e) ((s : DT)) (effective_end_dt b) = true) := by
  have he : effective_end_dt e = ⊤ := by simp [effective_end_dt, h]
  refine ⟨he, ?_, ?_⟩
  · intro t
    rw [he]
    exact fun hc => WithTop.coe_ne_top hc.symm
  · intro b aS s hb hwf haS
    rw [he]
    have hbe : (s : DT) ≤ effective_end_dt b := by
      unfold effective_end_dt
      rw [hb]
      cases hbe : b.end_dt with
      | none => simp
      | some t =>
        have hst : s ≤ t := by
          unfold wfE at hwf
          rw [hb, hbe] at hwf
          exact of_decide_eq_true hwf
        simpa using hst
    unfold overlaps
    simp only [Bool.and_eq_true, decide_eq_true_eq]
    exact ⟨le_trans haS hbe, le_top⟩

theorem c10_effective_end_none_witness :
    effective_end_dt ⟨7, "", [], "", "", none, none, false, false, []⟩ = ⊤ ∧
    overlaps (0 : Int) (effective_end_dt ⟨7, "", [], "", "", none, none, false, false, []⟩)
      ((5 : Int) : DT)
      (effective_end_dt ⟨8, "", [], "", "", some 5, some 9, false, false, []⟩) = true :=
  ⟨(c10_effective_end_none ⟨7, "", [], "", "", none, none, false, false, []⟩ rfl).1,
   (c10_effective_end_none ⟨7, "", [], "", "", none, none, false, false, []⟩ rfl).2.2
     ⟨8, "", [], "", "", some 5, some 9, false, false, []⟩ ((0 : Int) : DT) 5 rfl (by decide)
     (by exact_mod_cast (by decide : (0 : Int) ≤ 5))⟩

/-- C5: a vertical-layout slot whose start instant is shared by `n ≥ 1`
point (non-range) events has row height
`max(rowH, headerH + padH + n*itemH + (n-1)*itemGap)`. -/
theorem c5_slot_height (input : List VEvent) (i : Nat) (s : Int)
    (hs : (vUniqueStarts input)[i]? = some s)
    (hn : 0 < (vEvs input).countP (fun e => !e.is_range && e.start_ms == s)) :
    (vSlotHs input)[i]? =
      some (max 98 (stackH ((vEvs input).countP (fun e => !e.is_range && e.start_ms == s)))) := by
  unfold vSlotHs
  rw [List.getElem?_map, hs, Option.map_some', if_pos hn]

theorem c5_slot_height_witness :
    (vSlotHs [⟨"0", 0, 0, false⟩, ⟨"1", 0, 0, false⟩, ⟨"2", 0, 0, false⟩])[0]? = some 302 :=
  (c5_slot_height [⟨"0", 0, 0, false⟩, ⟨"1", 0, 0, false⟩, ⟨"2", 0, 0, false⟩] 0 0
    (by decide) (by decide)).trans (by decide)

theorem placeFF_mem :
    ∀ (rows : List (List Card)) (c : Card) (row : List Card),
      row ∈ placeFF rows c → ∀ x ∈ row, (∃ row' ∈ rows, x ∈ row') ∨ x = c
  | [], c, row, hrow, x, hx => by
    simp only [placeFF, List.mem_singleton] at hrow
    subst hrow
    right
    simpa using hx
  | r :: rest, c, row, hrow, x, hx => by
    unfold placeFF at hrow
    by_cases h : rowAccepts r c.event = true
    · rw [if_pos h] at hrow
      rcases List.mem_cons.mp hrow with rfl | hrow
      · rcases List.mem_append.mp hx with hx | hx
        · exact Or.inl ⟨r, by simp, hx⟩
        · right
          simpa using hx
      · exact Or.inl ⟨row, List.mem_cons_of_mem _ hrow, hx⟩
    · rw [if_neg h] at hrow
      rcases List.mem_cons.mp hrow with rfl | hrow
      · exact Or.inl ⟨row, by simp, hx⟩
      · rcases placeFF_mem rest c row hrow x hx with ⟨row', h1, h2⟩ | h1
        · exact Or.inl ⟨row', List.mem_cons_of_mem _ h1, h2⟩
        · exact Or.inr h1

theorem foldl_placeStep_isSome (events : List TimelineEvent) :
    ∀ (l : List TimelineEvent) (rows : List (List Card)),
      (∀ row ∈ rows, ∀ x ∈ row, x.event.start_dt.isSome = true) →
      ∀ row ∈ l.foldl (placeStep events) rows, ∀ x ∈ row, x.event.start_dt.isSome = true
  | [], rows, h => h
  | e :: rest, rows, h => by
    rw [List.foldl_cons]
    refine foldl_placeStep_isSome events rest (placeStep events rows e) ?_
    intro row' hrow' y hy
    unfold placeStep at hrow'
    cases he : e.start_dt with
    | none =>
      rw [he] at hrow'
      exact h row' hrow' y hy
    | some s =>
      rw [he] at hrow'
      rcases placeFF_mem rows (mkCard events e) row' hrow' y hy with ⟨r2, h1, h2⟩ | h1
      · exact h r2 h1 y h2
      · subst h1
        simp [mkCard, he]

/-- C8: the horizontal layout fails (raises) exactly when no event has a
resolvable start instant; otherwise events without a start are silently
excluded — every card placed in any entity lane carries a start. -/
theorem c8_empty_error (events : List TimelineEvent) :
    (generate_horizontal_timeline events = none ↔ ∀ e ∈ events, e.start_dt = none) ∧
    (∀ entity : String, ∀ row ∈ hLayoutFor events entity, ∀ c ∈ row,
      c.event.start_dt.isSome = true) := by
  constructor
  · have hiff : (timed_events events).isEmpty = true ↔ ∀ e ∈ events, e.start_dt = none := by
      rw [List.isEmpty_iff]
      constructor
      · intro h e he
        have hlen : (timed_events events).length = 0 := by rw [h]; rfl
        have hperm := sortBy_perm hLe (events.filter (fun e => e.start_dt.isSome))
        have hfl : (events.filter (fun e => e.start_dt.isSome)).length = 0 := by
          rw [← hperm.length_eq]
          exact hlen
        have hnil := List.length_eq_zero.mp hfl
        by_contra hne
        have : e ∈ events.filter (fun e => e.start_dt.isSome) :=
          List.mem_filter.mpr ⟨he, by simpa [Option.isSome_iff_ne_none] using hne⟩
        rw [hnil] at this
        exact absurd this (List.not_mem_nil e)
      · intro h
        have hfl : events.filter (fun e => e.start_dt.isSome) = [] := by
          rw [List.filter_eq_nil_iff]
          intro e he
          simp [h e he]
        unfold timed_events
        rw [hfl]
        rfl
    unfold generate_horizontal_timeline
    by_cases h : (timed_events events).isEmpty = true
    · rw [if_pos h]
      exact iff_of_true rfl (hiff.mp h)
    · rw [if_neg h]
      exact iff_of_false (by simp) (fun hc => h (hiff.mpr hc))
  · intro entity row hrow c hc
    unfold hLayoutFor at hrow
    rcases List.mem_map.mp hrow with ⟨row₀, hrow₀, rfl⟩
    have hc₀ : c ∈ row₀ := mem_sortBy.mp hc
    exact foldl_placeStep_isSome events _ [] (by simp) row₀ hrow₀ c hc₀

theorem c8_empty_error_witness :
    generate_horizontal_timeline [⟨0, "x", ["X"], "d", "t", none, none, false, false, []⟩] = none ∧
    (∀ c ∈ (hLayoutFor [⟨1, "y", ["X"], "d", "t", some 5, none, false, false, []⟩] "X").headD [],
      c.event.start_dt.isSome = true) :=
  ⟨(c8_empty_error [⟨0, "x", ["X"], "d", "t", none, none, false, false, []⟩]).1.mpr (by decide),
   (c8_empty_error [⟨1, "y", ["X"], "d", "t", some 5, none, false, false, []⟩]).2 "X"
     ((hLayoutFor [⟨1, "y", ["X"], "d", "t", some 5, none, false, false, []⟩] "X").headD [])
     (by decide)⟩

theorem estimate_card_width_ge (text : String) (b : Bool) :
    180 ≤ estimate_card_width text b := by
  unfold estimate_card_width
  by_cases hb : b = true
  · rw [if_pos hb]
    exact le_max_right _ _
  · rw [if_neg hb]
    exact le_max_left _ _

theorem slot_widths_nonneg (events : List TimelineEvent) :
    ∀ w ∈ slot_widths events, 0 ≤ w := by
  intro w hw
  rcases List.mem_map.mp hw with ⟨e, _, rfl⟩
  exact le_trans (by norm_num) (estimate_card_width_ge _ _)

theorem xStartsFrom_getElem? :
    ∀ (ws : List Int) (x : Int) (i : Nat), i < ws.length →
      (xStartsFrom x ws)[i]? = some (x + (ws.take i).sum + gap * i)
  | [], x, i, h => absurd h (by simp)
  | w :: ws, x, 0, _ => by
    simp [xStartsFrom]
  | w :: ws, x, i + 1, h => by
    have ih := xStartsFrom_getElem? ws (x + w + gap) i (by simpa using h)
    unfold xStartsFrom
    rw [List.getElem?_cons_succ, ih, List.take_succ_cons, List.sum_cons]
    congr 1
    push_cast
    ring

theorem xStartsFrom_le :
    ∀ (ws : List Int) (x : Int), (∀ w ∈ ws, 0 ≤ w) →
      ∀ y ∈ xStartsFrom x ws, x ≤ y
  | [], x, _, y, hy => absurd hy (by simp [xStartsFrom])
  | w :: ws, x, h, y, hy => by
    unfold xStartsFrom at hy
    rcases List.mem_cons.mp hy with rfl | hy
    · exact le_refl y
    · have hx : x ≤ x + w + gap := by
        have hw : 0 ≤ w := h w (by simp)
        unfold gap
        omega
      exact le_trans hx
        (xStartsFrom_le ws (x + w + gap) (fun w' hw' => h w' (List.mem_cons_of_mem _ hw')) y hy)

theorem xStartsFrom_pairwise_lt :
    ∀ (ws : List Int) (x : Int), (∀ w ∈ ws, 0 ≤ w) →
      (xStartsFrom x ws).Pairwise (fun a b => a < b)
  | [], x, _ => List.Pairwise.nil
  | w :: ws, x, h => by
    unfold xStartsFrom
    refine List.pairwise_cons.mpr ⟨?_, ?_⟩
    · intro y hy
      have hlt : x < x + w + gap := by
        have hw : 0 ≤ w := h w (by simp)
        unfold gap
        omega
      exact lt_of_lt_of_le hlt
        (xStartsFrom_le ws (x + w + gap) (fun w' hw' => h w' (List.mem_cons_of_mem _ hw')) y hy)
    · exact xStartsFrom_pairwise_lt ws (x + w + gap)
        (fun w' hw' => h w' (List.mem_cons_of_mem _ hw'))

theorem hKey_eq_event_id {a b : TimelineEvent} (h : hKey a = hKey b) :
    a.event_id = b.event_id := by
  unfold hKey at h
  have h' := toLex.injective h
  have h2 := (Prod.mk.injEq _ _ _ _).mp h'
  have h3 := toLex.injective h2.2
  exact ((Prod.mk.injEq _ _ _ _).mp h3).2

theorem timed_events_id_nodup {events : List TimelineEvent}
    (hids : (events.map (fun e => e.event_id)).Nodup) :
    ((timed_events events).map (fun e => e.event_id)).Nodup := by
  have hsub : List.Sublist
      ((events.filter (fun e => e.start_dt.isSome)).map (fun e => e.event_id))
      (events.map (fun e => e.event_id)) :=
    (List.filter_sublist events).map _
  have hnd : ((events.filter (fun e => e.start_dt.isSome)).map (fun e => e.event_id)).Nodup :=
    hids.sublist hsub
  have hperm : ((timed_events events).map (fun e => e.event_id)).Perm
      ((events.filter (fun e => e.start_dt.isSome)).map (fun e => e.event_id)) :=
    (sortBy_perm hLe _).map _
  exact hperm.nodup_iff.mpr hnd

/-- C3 is false as stated: the sort key of the horizontal layout is
`(start, end-is-None, id)`, not `(start, isRange-before-point, id)` — for an
event whose end equals its start (`is_range` false but end present), the
code places it before a same-start no-end event with a smaller id, so slot
order does not increase in the claimed key. -/
theorem c3_counterexample :
    ¬ (timed_events
        [⟨3, "", [], "", "", some 0, none, false, false, []⟩,
         ⟨5, "", [], "", "", some 0, some 0, false, false, []⟩]).Pairwise
      (fun a b => claimKey a < claimKey b) := by decide

/-- C3 (amended): slot indices strictly increase in the key
`(start, end-is-None, id)` (events that carry an end instant — ranged or
not — sort before end-less ones at equal start); the packed X starts are
strictly increasing in slot index, and slot `i` starts at the sum of all
prior slots' widths plus a 24-unit gap per prior slot. -/
theorem c3_amended (events : List TimelineEvent)
    (hids : (events.map (fun e => e.event_id)).Nodup) :
    (timed_events events).Pairwise (fun a b => hKey a < hKey b) ∧
    (x_starts events).Pairwise (fun a b => a < b) ∧
    (∀ i, i < (slot_widths events).length →
      (x_starts events)[i]? = some (((slot_widths events).take i).sum + gap * i)) := by
  refine ⟨?_, ?_, ?_⟩
  · have htotal : ∀ a b, hLe a b = true ∨ hLe b a = true := by
      intro a b
      unfold hLe
      rcases le_total (hKey a) (hKey b) with h | h
      · exact Or.inl (decide_eq_true h)
      · exact Or.inr (decide_eq_true h)
    have htr : ∀ a b c, hLe a b = true → hLe b c = true → hLe a c = true := by
      intro a b c hab hbc
      exact decide_eq_true (le_trans (of_decide_eq_true hab) (of_decide_eq_true hbc))
    have hle : (timed_events events).Pairwise (fun a b => hLe a b = true) :=
      pairwise_sortBy hLe htotal htr _
    have hne : (timed_events events).Pairwise (fun a b => a.event_id ≠ b.event_id) :=
      List.pairwise_map.mp (timed_events_id_nodup hids)
    refine (hle.and hne).imp ?_
    rintro a b ⟨h1, h2⟩
    refine lt_of_le_of_ne (of_decide_eq_true h1) ?_
    intro hk
    exact h2 (hKey_eq_event_id hk)
  · exact xStartsFrom_pairwise_lt _ 0 (slot_widths_nonneg events)
  · intro i hi
    unfold x_starts
    rw [xStartsFrom_getElem? _ 0 i hi]
    congr 1
    ring

theorem c3_amended_witness :
    (timed_events
      [⟨3, "", [], "", "", some 0, none, false, false, []⟩,
       ⟨5, "", [], "", "", some 0, some 0, false, false, []⟩]).Pairwise
        (fun a b => hKey a < hKey b) ∧
    (x_starts
      [⟨3, "", [], "", "", some 0, none, false, false, []⟩,
       ⟨5, "", [], "", "", some 0, some 0, false, false, []⟩]).Pairwise (fun a b => a < b) :=
  ⟨(c3_amended _ (by decide)).1, (c3_amended _ (by decide)).2.1⟩

theorem rmsStep_none (rs re' : Int) (m : Nat) (p : Nat × TimelineEvent)
    (hs : p.2.start_dt = none) : rmsStep rs re' m p = m := by
  unfold rmsStep
  rw [hs]

theorem rmsStep_some (rs re' : Int) (m : Nat) (p : Nat × TimelineEvent) (s : Int)
    (hs : p.2.start_dt = some s) :
    rmsStep rs re' m p = if rs ≤ s ∧ s ≤ re' then max m p.1 else m := by
  unfold rmsStep
  rw [hs]

theorem rmsStep_le (rs re' : Int) (m : Nat) (p : Nat × TimelineEvent) :
    m ≤ rmsStep rs re' m p := by
  cases hps : p.2.start_dt with
  | none => rw [rmsStep_none rs re' m p hps]
  | some s =>
    rw [rmsStep_some rs re' m p s hps]
    by_cases hcond : rs ≤ s ∧ s ≤ re'
    · rw [if_pos hcond]
      exact le_max_left m p.1
    · rw [if_neg hcond]

theorem foldl_rms_init_le (rs re' : Int) :
    ∀ (l : List (Nat × TimelineEvent)) (m : Nat), m ≤ l.foldl (rmsStep rs re') m
  | [], m => le_refl m
  | p :: l, m =>
    le_trans (rmsStep_le rs re' m p) (foldl_rms_init_le rs re' l (rmsStep rs re' m p))

theorem foldl_rms_mem_le (rs re' : Int) :
    ∀ (l : List (Nat × TimelineEvent)) (m j : Nat) (e : TimelineEvent) (s : Int),
      (j, e) ∈ l → e.start_dt = some s → rs ≤ s → s ≤ re' →
      j ≤ l.foldl (rmsStep rs re') m
  | [], _, _, e, s, hmem, _, _, _ => absurd hmem (List.not_mem_nil _)
  | p :: l, m, j, e, s, hmem, hs, h1, h2 => by
    rcases List.mem_cons.mp hmem with heq | hmem
    · subst heq
      have hstep : j ≤ rmsStep rs re' m (j, e) := by
        rw [rmsStep_some rs re' m (j, e) s hs, if_pos ⟨h1, h2⟩]
        exact le_max_right m j
      exact le_trans hstep (foldl_rms_init_le rs re' l _)
    · exact foldl_rms_mem_le rs re' l (rmsStep rs re' m p) j e s hmem hs h1 h2

theorem foldl_rms_lt (rs re' : Int) (N : Nat) :
    ∀ (l : List (Nat × TimelineEvent)) (m : Nat), m < N → (∀ p ∈ l, p.1 < N) →
      l.foldl (rmsStep rs re') m < N
  | [], m, hm, _ => hm
  | p :: l, m, hm, hp => by
    refine foldl_rms_lt rs re' N l (rmsStep rs re' m p) ?_
      (fun q hq => hp q (List.mem_cons_of_mem _ hq))
    cases hps : p.2.start_dt with
    | none =>
      rw [rmsStep_none rs re' m p hps]
      exact hm
    | some s =>
      rw [rmsStep_some rs re' m p s hps]
      by_cases hcond : rs ≤ s ∧ s ≤ re'
      · rw [if_pos hcond]
        exact max_lt hm (hp p (by simp))
      · rw [if_neg hcond]
        exact hm

theorem range_max_slot_lt (events : List TimelineEvent) (i : Nat)
    (hi : i < (timed_events events).length) :
    range_max_slot events i < (timed_events events).length := by
  unfold range_max_slot
  cases hr : (timed_events events)[i]? with
  | none =>
    rw [List.getElem?_eq_none_iff] at hr
    omega
  | some r =>
    cases hrs : r.start_dt with
    | none => simp only [hrs]; exact hi
    | some rs =>
      cases hre : r.end_dt with
      | none => simp only [hrs, hre]; exact hi
      | some re' =>
        simp only [hrs, hre]
        refine foldl_rms_lt rs re' _ _ i hi ?_
        intro p hp
        obtain ⟨j, ev⟩ := p
        have hj := List.mk_mem_enum_iff_getElem?.mp hp
        by_contra hlt
        have hnone := List.getElem?_eq_none_iff.mpr (Nat.le_of_not_lt hlt)
        rw [hnone] at hj
        cases hj

theorem range_max_slot_ge (events : List TimelineEvent) (i j : Nat)
    (r e : TimelineEvent) (rs re' s : Int)
    (hr : (timed_events events)[i]? = some r)
    (hrs : r.start_dt = some rs) (hre : r.end_dt = some re')
    (he : (timed_events events)[j]? = some e) (hes : e.start_dt = some s)
    (h1 : rs ≤ s) (h2 : s ≤ re') :
    j ≤ range_max_slot events i := by
  unfold range_max_slot
  rw [hr]
  simp only [hrs, hre]
  exact foldl_rms_mem_le rs re' _ i j e s (List.mk_mem_enum_iff_getElem?.mpr he) hes h1 h2

theorem sum_take_mono :
    ∀ (ws : List Int), (∀ w ∈ ws, 0 ≤ w) →
      ∀ a b : Nat, a ≤ b → (ws.take a).sum ≤ (ws.take b).sum
  | [], _, a, b, _ => by simp
  | w :: ws, hw, 0, b, _ => by
    simp only [List.take_zero, List.sum_nil]
    refine List.sum_nonneg ?_
    intro x hx
    exact hw x (List.take_subset b (w :: ws) hx)
  | w :: ws, hw, a + 1, b, hab => by
    cases b with
    | zero => omega
    | succ b' =>
      simp only [List.take_succ_cons, List.sum_cons]
      have ih := sum_take_mono ws (fun x hx => hw x (List.mem_cons_of_mem _ hx)) a b' (by omega)
      omega

theorem right_edge_eq (events : List TimelineEvent) (j : Nat)
    (hj : j < (slot_widths events).length) :
    right_edge events j = ((slot_widths events).take (j + 1)).sum + gap * j := by
  unfold right_edge x_starts
  rw [List.getD_eq_getElem?_getD, xStartsFrom_getElem? _ 0 j hj,
    List.getD_eq_getElem?_getD, List.getElem?_eq_getElem hj]
  simp only [Option.getD_some]
  rw [List.sum_take_succ _ j hj]
  ring

theorem right_edge_mono (events : List TimelineEvent) (a b : Nat)
    (hab : a ≤ b) (hb : b < (slot_widths events).length) :
    right_edge events a ≤ right_edge events b := by
  rw [right_edge_eq events a (lt_of_le_of_lt hab hb), right_edge_eq events b hb]
  have h1 := sum_take_mono (slot_widths events) (slot_widths_nonneg events)
    (a + 1) (b + 1) (by omega)
  have h2 : gap * (a : Int) ≤ gap * (b : Int) := by
    unfold gap
    have : (a : Int) ≤ (b : Int) := Int.ofNat_le.mpr hab
    omega
  omega

/-- C2 is false as stated: with range r = [0,10] at slot 0, range e = [5,100]
at slot 1 and a point event at instant 100 at slot 2, e's start lies within
r's interval but e's own widened far edge (588) exceeds r's far edge (384) —
the range covers contained events' slot extents, not their final widened
extents. -/
theorem c2_counterexample :
    (timed_events
      [⟨0, "", [], "", "", some 0, some 10, false, false, []⟩,
       ⟨1, "", [], "", "", some 5, some 100, false, false, []⟩,
       ⟨2, "", [], "", "", some 100, none, false, false, []⟩])[0]? =
      some ⟨0, "", [], "", "", some 0, some 10, false, false, []⟩ ∧
    (timed_events
      [⟨0, "", [], "", "", some 0, some 10, false, false, []⟩,
       ⟨1, "", [], "", "", some 5, some 100, false, false, []⟩,
       ⟨2, "", [], "", "", some 100, none, false, false, []⟩])[1]? =
      some ⟨1, "", [], "", "", some 5, some 100, false, false, []⟩ ∧
    is_range ⟨0, "", [], "", "", some 0, some 10, false, false, []⟩ = true ∧
    event_x
        [⟨0, "", [], "", "", some 0, some 10, false, false, []⟩,
         ⟨1, "", [], "", "", some 5, some 100, false, false, []⟩,
         ⟨2, "", [], "", "", some 100, none, false, false, []⟩] 0 +
      event_w
        [⟨0, "", [], "", "", some 0, some 10, false, false, []⟩,
         ⟨1, "", [], "", "", some 5, some 100, false, false, []⟩,
         ⟨2, "", [], "", "", some 100, none, false, false, []⟩] 0 <
      event_x
        [⟨0, "", [], "", "", some 0, some 10, false, false, []⟩,
         ⟨1, "", [], "", "", some 5, some 100, false, false, []⟩,
         ⟨2, "", [], "", "", some 100, none, false, false, []⟩] 1 +
      event_w
        [⟨0, "", [], "", "", some 0, some 10, false, false, []⟩,
         ⟨1, "", [], "", "", some 5, some 100, false, false, []⟩,
         ⟨2, "", [], "", "", some 100, none, false, false, []⟩] 1 := by
  refine ⟨by decide, by decide, by decide, by decide⟩

/-- C2 (amended): a range's far edge `x + width` reaches at least the far
edge of the *slot* (pre-widening extent) of every timed event whose start
lies within the range's `[start, end]`; an inner range's own widened extent
may protrude past the outer range. The range's width is never narrowed
below its text-estimated slot width. -/
theorem c2_amended (events : List TimelineEvent) (i j : Nat)
    (r e : TimelineEvent) (rs re' s : Int)
    (hr : (timed_events events)[i]? = some r) (he : (timed_events events)[j]? = some e)
    (hrange : is_range r = true)
    (hrs : r.start_dt = some rs) (hre : r.end_dt = some re')
    (hes : e.start_dt = some s) (h1 : rs ≤ s) (h2 : s ≤ re') :
    event_x events j + (slot_widths events).getD j 0 ≤ event_x events i + event_w events i ∧
    (slot_widths events).getD i 0 ≤ event_w events i := by
  have hilen : i < (timed_events events).length := by
    by_contra h
    rw [List.getElem?_eq_none_iff.mpr (Nat.le_of_not_lt h)] at hr
    cases hr
  have hjlen : j < (timed_events events).length := by
    by_contra h
    rw [List.getElem?_eq_none_iff.mpr (Nat.le_of_not_lt h)] at he
    cases he
  have hwlen : (slot_widths events).length = (timed_events events).length :=
    List.length_map _ _
  have hM := range_max_slot_ge events i j r e rs re' s hr hrs hre he hes h1 h2
  have hMlt := range_max_slot_lt events i hilen
  have hew : event_w events i = max ((slot_widths events).getD i 0)
      (right_edge events (range_max_slot events i) - event_x events i) := by
    unfold event_w
    rw [hr]
    simp only [hrange, if_true]
  constructor
  · have hrej : event_x events j + (slot_widths events).getD j 0 = right_edge events j := rfl
    rw [hrej, hew]
    have hmono := right_edge_mono events j (range_max_slot events i) hM (by omega)
    have h3 : right_edge events (range_max_slot events i) - event_x events i ≤
        max ((slot_widths events).getD i 0)
          (right_edge events (range_max_slot events i) - event_x events i) :=
      le_max_right _ _
    linarith
  · rw [hew]
    exact le_max_left _ _

theorem c2_amended_witness :
    event_x
        [⟨0, "", [], "", "", some 0, some 10, false, false, []⟩,
         ⟨1, "", [], "", "", some 5, some 100, false, false, []⟩,
         ⟨2, "", [], "", "", some 100, none, false, false, []⟩] 1 +
      (slot_widths
        [⟨0, "", [], "", "", some 0, some 10, false, false, []⟩,
         ⟨1, "", [], "", "", some 5, some 100, false, false, []⟩,
         ⟨2, "", [], "", "", some 100, none, false, false, []⟩]).getD 1 0 ≤
      event_x
        [⟨0, "", [], "", "", some 0, some 10, false, false, []⟩,
         ⟨1, "", [], "", "", some 5, some 100, false, false, []⟩,
         ⟨2, "", [], "", "", some 100, none, false, false, []⟩] 0 +
      event_w
        [⟨0, "", [], "", "", some 0, some 10, false, false, []⟩,
         ⟨1, "", [], "", "", some 5, some 100, false, false, []⟩,
         ⟨2, "", [], "", "", some 100, none, false, false, []⟩] 0 :=
  (c2_amended
    [⟨0, "", [], "", "", some 0, some 10, false, false, []⟩,
     ⟨1, "", [], "", "", some 5, some 100, false, false, []⟩,
     ⟨2, "", [], "", "", some 100, none, false, false, []⟩] 0 1
    ⟨0, "", [], "", "", some 0, some 10, false, false, []⟩
    ⟨1, "", [], "", "", some 5, some 100, false, false, []⟩ 0 10 5
    (by decide) (by decide) (by decide) rfl rfl rfl (by decide) (by decide)).1

theorem mem_firstSeenFrom [DecidableEq α] :
    ∀ (seen l : List α) (x : α), x ∈ firstSeenFrom seen l ↔ (x ∈ l ∧ x ∉ seen)
  | seen, [], x => by simp [firstSeenFrom]
  | seen, a :: rest, x => by
    unfold firstSeenFrom
    by_cases ha : a ∈ seen
    · rw [if_pos ha, mem_firstSeenFrom seen rest x]
      constructor
      · rintro ⟨h1, h2⟩
        exact ⟨List.mem_cons_of_mem _ h1, h2⟩
      · rintro ⟨h1, h2⟩
        rcases List.mem_cons.mp h1 with rfl | h1
        · exact absurd ha h2
        · exact ⟨h1, h2⟩
    · rw [if_neg ha]
      constructor
      · intro hmem
        rcases List.mem_cons.mp hmem with rfl | hmem
        · exact ⟨List.mem_cons_self _ _, ha⟩
        · rcases (mem_firstSeenFrom (a :: seen) rest x).mp hmem with ⟨h1, h2⟩
          exact ⟨List.mem_cons_of_mem _ h1, fun hc => h2 (List.mem_cons_of_mem _ hc)⟩
      · rintro ⟨h1, h2⟩
        rcases List.mem_cons.mp h1 with rfl | h1
        · exact List.mem_cons_self _ _
        · by_cases hxa : x = a
          · subst hxa
            exact List.mem_cons_self _ _
          · refine List.mem_cons_of_mem _ ((mem_firstSeenFrom (a :: seen) rest x).mpr ⟨h1, ?_⟩)
            intro hc
            rcases List.mem_cons.mp hc with rfl | hc
            · exact hxa rfl
            · exact h2 hc

theorem nodup_firstSeenFrom [DecidableEq α] :
    ∀ (seen l : List α), (firstSeenFrom seen l).Nodup
  | seen, [] => List.nodup_nil
  | seen, a :: rest => by
    unfold firstSeenFrom
    by_cases ha : a ∈ seen
    · rw [if_pos ha]
      exact nodup_firstSeenFrom seen rest
    · rw [if_neg ha]
      refine List.nodup_cons.mpr ⟨?_, nodup_firstSeenFrom (a :: seen) rest⟩
      intro hc
      exact ((mem_firstSeenFrom (a :: seen) rest a).mp hc).2 (List.mem_cons_self _ _)

theorem colorAssign_find :
    ∀ (ks : List String) (n : Nat), ks.Nodup →
      ∀ (i : Nat) (x : String), ks[i]? = some x →
      dictFind (colorAssign ks n) x = some (hslStr (hueOf (n + i)))
  | [], _, _, i, x, h => by simp at h
  | k :: ks, n, hnd, 0, x, h => by
    rw [List.getElem?_cons_zero] at h
    injection h with h
    subst h
    unfold colorAssign dictFind
    rw [List.find?_cons_of_pos _ (by simp)]
    simp
  | k :: ks, n, hnd, i + 1, x, h => by
    rw [List.getElem?_cons_succ] at h
    have hx : x ∈ ks := List.getElem?_mem h
    have hk : (k == x) = false := by
      rw [beq_eq_false_iff_ne]
      intro heq
      exact (List.nodup_cons.mp hnd).1 (heq ▸ hx)
    have ih := colorAssign_find ks (n + 1) (List.nodup_cons.mp hnd).2 i x h
    unfold colorAssign dictFind
    rw [List.find?_cons_of_neg _ (by simp [hk])]
    unfold dictFind at ih
    have harg : n + 1 + i = n + (i + 1) := by omega
    rw [harg] at ih
    exact ih

/-- C7 is false as stated: when two distinct entity names coincide under
case-folding, the case-insensitive sort breaks the tie by input order
(Python's sort is stable), so the same name receives different colors for
different encounter orders of the same entity set. -/
theorem c7_counterexample :
    (["A", "a"] : List String).Perm ["a", "A"] ∧
    dictFind (build_entity_colors ["A", "a"]) "a" ≠
      dictFind (build_entity_colors ["a", "A"]) "a" :=
  ⟨by decide, by decide⟩

/-- C7 (amended): with the case-folding key treated as an arbitrary
function `cf` (so the statement covers Python's full `str.casefold`), each
entity at position `i` of the case-insensitively sorted, deduplicated
entity list receives hue `(24 + i * 137.508) mod 360` at fixed
saturation/lightness; and the assignment is independent of the encounter
order of the same full entity set provided no two distinct entity names
coincide under the fold — otherwise the stable sort breaks the tie by
input order. The concrete `build_entity_colors` is the `casefold`
instance of the parametric pipeline. -/
theorem c7_amended :
    (∀ (cf : String → String) (l : List String) (i : Nat) (x : String),
      (firstSeen (sortBy (casefoldLeBy cf) l))[i]? = some x →
      dictFind (build_entity_colors_by cf l) x = some (hslStr (hueOf i))) ∧
    (∀ (cf : String → String) (l₁ l₂ : List String), l₁.Perm l₂ →
      (∀ a ∈ l₁, ∀ b ∈ l₁, cf a = cf b → a = b) →
      build_entity_colors_by cf l₁ = build_entity_colors_by cf l₂) ∧
    build_entity_colors = build_entity_colors_by casefold := by
  refine ⟨?_, ?_, rfl⟩
  · intro cf l i x hx
    unfold build_entity_colors_by
    have h := colorAssign_find (firstSeen (sortBy (casefoldLeBy cf) l)) 0
      (nodup_firstSeenFrom _ _) i x hx
    simpa using h
  · intro cf l₁ l₂ hperm hinj
    have htotal : ∀ a b, casefoldLeBy cf a b = true ∨ casefoldLeBy cf b a = true := by
      intro a b
      unfold casefoldLeBy
      rcases le_total (cf a).data (cf b).data with h | h
      · exact Or.inl (decide_eq_true h)
      · exact Or.inr (decide_eq_true h)
    have htrans : ∀ a b c, casefoldLeBy cf a b = true → casefoldLeBy cf b c = true →
        casefoldLeBy cf a c = true := by
      intro a b c hab hbc
      exact decide_eq_true (le_trans (of_decide_eq_true hab) (of_decide_eq_true hbc))
    have hanti : ∀ a ∈ l₁, ∀ b ∈ l₁,
        casefoldLeBy cf a b = true → casefoldLeBy cf b a = true → a = b := by
      intro a ha b hb hab hba
      refine hinj a ha b hb (String.ext ?_)
      exact le_antisymm (of_decide_eq_true hab) (of_decide_eq_true hba)
    have hsort : sortBy (casefoldLeBy cf) l₁ = sortBy (casefoldLeBy cf) l₂ :=
      sortBy_eq_of_perm (casefoldLeBy cf) htotal htrans hperm hanti
    unfold build_entity_colors_by firstSeen
    rw [hsort]

theorem c7_amended_witness :
    dictFind (build_entity_colors_by casefold ["b", "Aa"]) "Aa" = some (hslStr (hueOf 0)) ∧
    build_entity_colors_by casefold ["b", "Aa"] = build_entity_colors_by casefold ["Aa", "b"] :=
  ⟨c7_amended.1 casefold ["b", "Aa"] 0 "Aa" (by decide),
   c7_amended.2.1 casefold ["b", "Aa"] ["Aa", "b"] (by decide) (by decide)⟩

theorem sKey_eq_event_id {a b : TimelineEvent} (h : sKey a = sKey b) :
    a.event_id = b.event_id := by
  unfold sKey at h
  have h1 := toLex.injective h
  have h2 := (Prod.mk.injEq _ _ _ _).mp h1
  have h3 := toLex.injective h2.2
  have h4 := (Prod.mk.injEq _ _ _ _).mp h3
  have h5 := toLex.injective h4.2
  exact ((Prod.mk.injEq _ _ _ _).mp h5).2

theorem hLe_total (a b : TimelineEvent) : hLe a b = true ∨ hLe b a = true := by
  unfold hLe
  rcases le_total (hKey a) (hKey b) with h | h
  · exact Or.inl (decide_eq_true h)
  · exact Or.inr (decide_eq_true h)

theorem hLe_trans (a b c : TimelineEvent) (hab : hLe a b = true) (hbc : hLe b c = true) :
    hLe a c = true :=
  decide_eq_true (le_trans (of_decide_eq_true hab) (of_decide_eq_true hbc))

theorem sLe_total (a b : TimelineEvent) : sLe a b = true ∨ sLe b a = true := by
  unfold sLe
  rcases le_total (sKey a) (sKey b) with h | h
  · exact Or.inl (decide_eq_true h)
  · exact Or.inr (decide_eq_true h)

theorem sLe_trans (a b c : TimelineEvent) (hab : sLe a b = true) (hbc : sLe b c = true) :
    sLe a c = true :=
  decide_eq_true (le_trans (of_decide_eq_true hab) (of_decide_eq_true hbc))

theorem timed_events_eq_of_perm {l₁ l₂ : List TimelineEvent} (hperm : l₁.Perm l₂)
    (hids : (l₁.map (fun e => e.event_id)).Nodup) :
    timed_events l₁ = timed_events l₂ := by
  have hinj := List.inj_on_of_nodup_map hids
  unfold timed_events
  refine sortBy_eq_of_perm hLe hLe_total hLe_trans (hperm.filter _) ?_
  intro a ha b hb hab hba
  have hkey : hKey a = hKey b := le_antisymm (of_decide_eq_true hab) (of_decide_eq_true hba)
  exact hinj (List.mem_of_mem_filter ha) (List.mem_of_mem_filter hb) (hKey_eq_event_id hkey)

theorem mkCard_congr (l₁ l₂ : List TimelineEvent) (h : timed_events l₁ = timed_events l₂)
    (e : TimelineEvent) : mkCard l₁ e = mkCard l₂ e := by
  simp only [mkCard, slot_of_id, event_x, event_w, range_max_slot, right_edge, x_starts,
    slot_widths, h]

theorem placeStep_congr (l₁ l₂ : List TimelineEvent) (h : timed_events l₁ = timed_events l₂) :
    placeStep l₁ = placeStep l₂ := by
  funext rows e
  unfold placeStep
  cases he : e.start_dt with
  | none => rfl
  | some s => rw [mkCard_congr l₁ l₂ h e]

theorem sorted_entity_eq_of_perm {l₁ l₂ : List TimelineEvent} (hperm : l₁.Perm l₂)
    (hids : (l₁.map (fun e => e.event_id)).Nodup) (entity : String) :
    sorted_events (entity_list_of l₁ entity) = sorted_events (entity_list_of l₂ entity) := by
  have hinj := List.inj_on_of_nodup_map hids
  have hlp : (entity_list_of l₁ entity).Perm (entity_list_of l₂ entity) :=
    List.Perm.flatMap_right _ hperm
  have hmem : ∀ x ∈ entity_list_of l₁ entity, x ∈ l₁ := by
    intro x hx
    rcases List.mem_flatMap.mp hx with ⟨e, he, hx2⟩
    rcases List.mem_map.mp hx2 with ⟨_, _, rfl⟩
    exact he
  refine sortBy_eq_of_perm sLe sLe_total sLe_trans hlp ?_
  intro a ha b hb hab hba
  have hkey : sKey a = sKey b := le_antisymm (of_decide_eq_true hab) (of_decide_eq_true hba)
  exact hinj (hmem a ha) (hmem b hb) (sKey_eq_event_id hkey)

/-- C9: the horizontal layout is order-independent — for any permutation of
the normalized event list (with the ingestion-unique ids), the whole layout
result, and in particular every entity lane's subrows with each card's x
position and width, is identical: every sort key is totalized by the id
tie-break. -/
theorem c9_order_independence (l₁ l₂ : List TimelineEvent) (hperm : l₁.Perm l₂)
    (hids : (l₁.map (fun e => e.event_id)).Nodup) :
    generate_horizontal_timeline l₁ = generate_horizontal_timeline l₂ ∧
    (∀ entity : String, hLayoutFor l₁ entity = hLayoutFor l₂ entity) := by
  have htimed := timed_events_eq_of_perm hperm hids
  have hlayout : ∀ entity : String, hLayoutFor l₁ entity = hLayoutFor l₂ entity := by
    intro entity
    unfold hLayoutFor
    rw [sorted_entity_eq_of_perm hperm hids entity, placeStep_congr l₁ l₂ htimed]
  refine ⟨?_, hlayout⟩
  unfold generate_horizontal_timeline
  rw [htimed]
  by_cases h : (timed_events l₂).isEmpty = true
  · rw [if_pos h, if_pos h]
  · rw [if_neg h, if_neg h]
    have hx : x_starts l₁ = x_starts l₂ := by
      unfold x_starts slot_widths
      rw [htimed]
    have hw : slot_widths l₁ = slot_widths l₂ := by
      unfold slot_widths
      rw [htimed]
    rw [Option.some_inj]
    refine congrArg₂ (fun f m => HResult.mk (timed_events l₂) f m) ?_ ?_
    · funext entity
      exact hlayout entity
    · rw [hx, hw]

theorem c9_order_independence_witness :
    generate_horizontal_timeline
        [⟨0, "a", ["X"], "d", "t", some 540, none, true, true, []⟩,
         ⟨1, "b", ["X"], "d", "t", some 540, some 660, true, true, []⟩] =
      generate_horizontal_timeline
        [⟨1, "b", ["X"], "d", "t", some 540, some 660, true, true, []⟩,
         ⟨0, "a", ["X"], "d", "t", some 540, none, true, true, []⟩] ∧
    hLayoutFor
        [⟨0, "a", ["X"], "d", "t", some 540, none, true, true, []⟩,
         ⟨1, "b", ["X"], "d", "t", some 540, some 660, true, true, []⟩] "X" =
      hLayoutFor
        [⟨1, "b", ["X"], "d", "t", some 540, some 660, true, true, []⟩,
         ⟨0, "a", ["X"], "d", "t", some 540, none, true, true, []⟩] "X" :=
  ⟨(c9_order_independence _ _ (by decide) (by decide)).1,
   (c9_order_independence _ _ (by decide) (by decide)).2 "X"⟩

theorem pairwise_of_perm_symm {R : α → α → Prop}
    (hs : ∀ a b, R a b → R b a) {l₁ l₂ : List α} (hp : l₁.Perm l₂)
    (h : l₁.Pairwise R) : l₂.Pairwise R := by
  refine (List.Perm.pairwise_iff ?_ hp).mp h
  intro a b hab
  exact hs a b hab

theorem rowAccepts_last (row : List Card) (e : TimelineEvent) (last : Card) (ts ls : Int)
    (hlast : row.getLast? = some last) (hts : e.start_dt = some ts)
    (hls : last.event.start_dt = some ls) :
    rowAccepts row e =
      !(overlaps ((ts : Int) : DT) ((e.end_dt.getD ts : Int) : DT)
        ((ls : Int) : DT) ((last.end_dt : Int) : DT)) := by
  unfold rowAccepts
  rw [hlast, hts]
  simp only [hls]

theorem mkCard_good (events : List TimelineEvent) (e : TimelineEvent) (s : Int)
    (hs : e.start_dt = some s) (hwf : wfE e = true) : GoodCard (mkCard events e) := by
  refine ⟨s, ?_, ?_, ?_⟩
  · simpa [mkCard] using hs
  · simp [mkCard, startD, hs]
  · simp only [mkCard]
    unfold wfE at hwf
    cases he : e.end_dt with
    | none => simp [startD, hs, he]
    | some t =>
      rw [hs, he] at hwf
      simp [startD, hs, he, of_decide_eq_true hwf]

theorem effective_end_good {c : Card} (hc : GoodCard c) :
    effective_end_dt c.event = ((c.end_dt : Int) : DT) := by
  rcases hc with ⟨s, hs, hend, _⟩
  unfold effective_end_dt
  rw [hs]
  cases he : c.event.end_dt with
  | none =>
    rw [he] at hend
    simp only [Option.getD_none] at hend
    rw [hend]
  | some t =>
    rw [he] at hend
    simp only [Option.getD_some] at hend
    rw [hend]

theorem startTop_good {c : Card} (hc : GoodCard c) :
    startTop c.event = ((startD c.event : Int) : DT) := by
  rcases hc with ⟨s, hs, _, _⟩
  unfold startTop startD
  rw [hs]
  simp

theorem placeFF_ok :
    ∀ (rows : List (List Card)) (c : Card), RowsOk rows → GoodCard c →
      (∀ row ∈ rows, ∀ x ∈ row, startD x.event ≤ startD c.event) →
      RowsOk (placeFF rows c)
  | [], c, _, hc, _ => by
    intro row hrow
    simp only [placeFF, List.mem_singleton] at hrow
    subst hrow
    refine ⟨by simp, List.pairwise_singleton _ _, ?_⟩
    intro x hx
    rw [List.mem_singleton] at hx
    subst hx
    exact hc
  | row :: rest, c, hrows, hc, hbound => by
    unfold placeFF
    by_cases hacc : rowAccepts row c.event = true
    · rw [if_pos hacc]
      intro row' hrow'
      rcases List.mem_cons.mp hrow' with rfl | hrow'
      · obtain ⟨hne, hpw, hgood⟩ := hrows row (by simp)
        cases hlast : row.getLast? with
        | none =>
          exact absurd (List.getLast?_eq_none_iff.mp hlast) hne
        | some last =>
          obtain ⟨ys, rfl⟩ := List.getLast?_eq_some_iff.mp hlast
          have hc2 := hc
          obtain ⟨sc, hsc, hendc, hwfc⟩ := hc2
          obtain ⟨sl, hsl, hendl, hwfl⟩ := hgood last (by simp)
          -- the acceptance test succeeded: unfold it
          rw [rowAccepts_last (ys ++ [last]) c.event last sc sl hlast hsc hsl] at hacc
          rw [Bool.not_eq_eq_eq_not, Bool.not_true] at hacc
          unfold overlaps at hacc
          rw [Bool.and_eq_false_iff] at hacc
          have hls_le : sl ≤ sc := by
            have := hbound (ys ++ [last]) (by simp) last (by simp)
            unfold startD at this
            rw [hsc, hsl] at this
            simpa using this
          have hsc_le : (sc : Int) ≤ c.event.end_dt.getD sc := by
            rw [← hendc]
            exact hwfc
          have hsecond : ¬ (decide (((sl : Int) : DT) ≤ ((c.event.end_dt.getD sc : Int) : DT)) = false) := by
            rw [decide_eq_false_iff_not]
            intro hcon
            exact hcon (by exact_mod_cast le_trans hls_le hsc_le)
          have hfirst : ¬ ((sc : DT) ≤ ((last.end_dt : Int) : DT)) := by
            rcases hacc with h | h
            · exact of_decide_eq_false h
            · exact absurd h hsecond
          have hlt : last.end_dt < sc := by
            have := not_le.mp hfirst
            exact_mod_cast this
          refine ⟨by simp, ?_, ?_⟩
          · rw [List.pairwise_append]
            refine ⟨hpw, List.pairwise_singleton _ _, ?_⟩
            intro a ha b hb
            rw [List.mem_singleton] at hb
            subst hb
            have hale : a.end_dt ≤ last.end_dt := by
              rcases List.mem_append.mp ha with ha' | ha'
              · have hblt : a.end_dt < startD last.event := by
                  rw [List.pairwise_append] at hpw
                  exact hpw.2.2 a ha' last (by simp)
                have : startD last.event ≤ last.end_dt := by
                  unfold startD
                  rw [hsl]
                  simpa using hwfl
                omega
              · rw [List.mem_singleton] at ha'
                subst ha'
                exact le_refl _
            unfold startD
            rw [hsc]
            simp only [Option.getD_some]
            omega
          · intro x hx
            rcases List.mem_append.mp hx with hx' | hx'
            · exact hgood x hx'
            · rw [List.mem_singleton] at hx'
              subst hx'
              exact hc
      · exact hrows row' (List.mem_cons_of_mem _ hrow')
    · rw [if_neg hacc]
      intro row' hrow'
      rcases List.mem_cons.mp hrow' with rfl | hrow'
      · exact hrows row' (by simp)
      · refine placeFF_ok rest c (fun r hr => hrows r (List.mem_cons_of_mem _ hr)) hc
          (fun r hr x hx => hbound r (List.mem_cons_of_mem _ hr) x hx) row' hrow'

theorem startTop_le_of_some {a b : TimelineEvent} {sa sb : Int}
    (ha : a.start_dt = some sa) (hb : b.start_dt = some sb)
    (h : startTop a ≤ startTop b) : sa ≤ sb := by
  simp only [startTop, ha, hb] at h
  exact_mod_cast h

theorem foldl_placeStep_ok (events : List TimelineEvent) :
    ∀ (l : List TimelineEvent) (rows : List (List Card)),
      (∀ e ∈ l, wfE e = true) →
      l.Pairwise (fun a b => startTop a ≤ startTop b) →
      RowsOk rows →
      (∀ row ∈ rows, ∀ x ∈ row, ∀ e ∈ l, ∀ s : Int, e.start_dt = some s →
        startD x.event ≤ s) →
      RowsOk (l.foldl (placeStep events) rows)
  | [], rows, _, _, hrows, _ => hrows
  | e :: rest, rows, hwf, hpw, hrows, hbound => by
    rw [List.foldl_cons]
    rcases List.pairwise_cons.mp hpw with ⟨hhead, htail⟩
    cases he : e.start_dt with
    | none =>
      have hstep : placeStep events rows e = rows := by
        unfold placeStep
        rw [he]
      rw [hstep]
      exact foldl_placeStep_ok events rest rows
        (fun f hf => hwf f (List.mem_cons_of_mem _ hf)) htail hrows
        (fun r hr x hx f hf => hbound r hr x hx f (List.mem_cons_of_mem _ hf))
    | some s =>
      have hstep : placeStep events rows e = placeFF rows (mkCard events e) := by
        unfold placeStep
        rw [he]
      rw [hstep]
      have hgc : GoodCard (mkCard events e) :=
        mkCard_good events e s he (hwf e (by simp))
      have hbc : ∀ row ∈ rows, ∀ x ∈ row, startD x.event ≤ startD (mkCard events e).event := by
        intro r hr x hx
        have := hbound r hr x hx e (by simp) s he
        simp only [mkCard]
        unfold startD
        rw [he]
        simpa [startD] using this
      refine foldl_placeStep_ok events rest (placeFF rows (mkCard events e))
        (fun f hf => hwf f (List.mem_cons_of_mem _ hf)) htail
        (placeFF_ok rows (mkCard events e) hrows hgc hbc) ?_
      intro r hr x hx f hf st hfst
      rcases placeFF_mem rows (mkCard events e) r hr x hx with ⟨r2, h1, h2⟩ | h1
      · exact hbound r2 h1 x h2 f (List.mem_cons_of_mem _ hf) st hfst
      · subst h1
        have hef : startTop e ≤ startTop f := hhead f hf
        have : s ≤ st := startTop_le_of_some he hfst hef
        simp only [mkCard]
        unfold startD
        rw [he]
        simpa using this

theorem sLe_startTop {a b : TimelineEvent} (h : sLe a b = true) :
    startTop a ≤ startTop b := by
  have hle : sKey a ≤ sKey b := of_decide_eq_true h
  unfold sKey at hle
  rcases (Prod.Lex.le_iff
      (a.start_dt.isNone, toLex (startTop a, toLex (!(is_range a), a.event_id)))
      (b.start_dt.isNone, toLex (startTop b, toLex (!(is_range b), b.event_id)))).mp hle with
    hlt | hrest
  · have hb : b.start_dt.isNone = true := (Bool.lt_iff.mp hlt).2
    unfold startTop
    cases hbs : b.start_dt with
    | none => exact le_top
    | some t =>
      rw [hbs] at hb
      simp at hb
  · rcases hrest with ⟨heq, hinner⟩
    rcases (Prod.Lex.le_iff
        (startTop a, toLex (!(is_range a), a.event_id))
        (startTop b, toLex (!(is_range b), b.event_id))).mp hinner with hlt2 | hrest2
    · exact le_of_lt hlt2
    · exact le_of_eq hrest2.1

/-- C1: in the horizontal layout, within every entity lane, any two events
placed into the same subrow have non-overlapping closed time intervals
`[start, effectiveEnd]` under the boundary-inclusive overlap test, even
though the first-fit loop compares a candidate only against each subrow's
last-placed event (events are processed in nondecreasing start order, so
the last card's interval dominates). Requires the §3 normalization
invariant `end ≥ start`. -/
theorem c1_no_overlap (events : List TimelineEvent) (entity : String)
    (hwf : ∀ e ∈ events, wfE e = true) :
    ∀ row ∈ hLayoutFor events entity, row.Pairwise (fun a b =>
      overlaps (startTop a.event) (effective_end_dt a.event)
        (startTop b.event) (effective_end_dt b.event) = false) := by
  intro row hrow
  unfold hLayoutFor at hrow
  rcases List.mem_map.mp hrow with ⟨row₀, hrow₀, rfl⟩
  have hwf' : ∀ e ∈ sorted_events (entity_list_of events entity), wfE e = true := by
    intro e he
    have he₁ : e ∈ entity_list_of events entity := mem_sortBy.mp he
    rcases List.mem_flatMap.mp he₁ with ⟨f, hf, hf2⟩
    rcases List.mem_map.mp hf2 with ⟨_, _, rfl⟩
    exact hwf f hf
  have hpw : (sorted_events (entity_list_of events entity)).Pairwise
      (fun a b => startTop a ≤ startTop b) := by
    refine List.Pairwise.imp ?_ (pairwise_sortBy sLe sLe_total sLe_trans _)
    intro a b hab
    exact sLe_startTop hab
  have hok : RowsOk ((sorted_events (entity_list_of events entity)).foldl
      (placeStep events) []) :=
    foldl_placeStep_ok events _ [] hwf' hpw (by intro r hr; cases hr) (by intro r hr; cases hr)
  obtain ⟨_, hpw₀, hgood₀⟩ := hok row₀ hrow₀
  have hnoov : row₀.Pairwise (fun a b =>
      overlaps (startTop a.event) (effective_end_dt a.event)
        (startTop b.event) (effective_end_dt b.event) = false) := by
    refine List.Pairwise.imp_of_mem ?_ hpw₀
    intro a b ha hb hab
    rw [effective_end_good (hgood₀ a ha), effective_end_good (hgood₀ b hb),
      startTop_good (hgood₀ a ha), startTop_good (hgood₀ b hb)]
    unfold overlaps
    rw [Bool.and_eq_false_iff]
    right
    rw [decide_eq_false_iff_not]
    intro hcon
    have hle : startD b.event ≤ a.end_dt := by exact_mod_cast hcon
    omega
  refine pairwise_of_perm_symm ?_ (sortBy_perm cardLe row₀).symm hnoov
  intro a b hab
  unfold overlaps at hab ⊢
  rw [Bool.and_eq_false_iff] at hab ⊢
  rcases hab with h | h
  · right
    exact h
  · left
    exact h

theorem c1_no_overlap_witness :
    (∀ row ∈ hLayoutFor
        [⟨0, "a", ["X"], "d", "t", some 540, none, true, true, []⟩,
         ⟨1, "b", ["X"], "d", "t", some 540, some 660, true, true, []⟩] "X",
      row.Pairwise (fun a b =>
        overlaps (startTop a.event) (effective_end_dt a.event)
          (startTop b.event) (effective_end_dt b.event) = false)) ∧
    (hLayoutFor
        [⟨0, "a", ["X"], "d", "t", some 540, none, true, true, []⟩,
         ⟨1, "b", ["X"], "d", "t", some 540, some 660, true, true, []⟩] "X").length = 2 :=
  ⟨c1_no_overlap
      [⟨0, "a", ["X"], "d", "t", some 540, none, true, true, []⟩,
       ⟨1, "b", ["X"], "d", "t", some 540, some 660, true, true, []⟩] "X" (by decide),
   by decide⟩

theorem gPlace_fst :
    ∀ (g : List (Int × List VEvent)) (r : VEvent),
      (gPlace g r).map Prod.fst = colPlace (g.map Prod.fst) r
  | [], r => rfl
  | (v, c) :: cs, r => by
    unfold gPlace colPlace
    by_cases h : v < r.start_ms
    · rw [if_pos h]
      simp only [List.map_cons]
      rw [if_pos h]
    · rw [if_neg h]
      simp only [List.map_cons]
      rw [if_neg h, gPlace_fst cs r]

theorem foldl_gPlace_fst :
    ∀ (rs : List VEvent) (g : List (Int × List VEvent)),
      (rs.foldl gPlace g).map Prod.fst = rs.foldl colPlace (g.map Prod.fst)
  | [], g => rfl
  | r :: rs, g => by
    rw [List.foldl_cons, List.foldl_cons, foldl_gPlace_fst rs (gPlace g r), gPlace_fst]

theorem gPlace_flatten_perm :
    ∀ (g : List (Int × List VEvent)) (r : VEvent),
      (((gPlace g r).map Prod.snd).flatten).Perm (r :: (g.map Prod.snd).flatten)
  | [], r => by simp [gPlace]
  | (v, c) :: cs, r => by
    unfold gPlace
    by_cases h : v < r.start_ms
    · rw [if_pos h]
      simp only [List.map_cons, List.flatten_cons]
      have : c ++ [r] ++ (cs.map Prod.snd).flatten = c ++ (r :: (cs.map Prod.snd).flatten) := by
        rw [List.append_assoc]
        rfl
      rw [this]
      exact List.perm_middle
    · rw [if_neg h]
      simp only [List.map_cons, List.flatten_cons]
      have hih := gPlace_flatten_perm cs r
      exact (hih.append_left c).trans List.perm_middle

theorem gPlace_cols (g : List (Int × List VEvent)) (r : VEvent)
    (h2 : ∀ p ∈ g, (∃ q ∈ p.2, q.end_ms = p.1) ∧ (∀ q ∈ p.2, q.end_ms ≤ p.1))
    (h3 : ∀ p ∈ g, p.2.Pairwise (fun a b => a.end_ms < b.start_ms)) :
    (∀ p ∈ gPlace g r, (∃ q ∈ p.2, q.end_ms = p.1) ∧ (∀ q ∈ p.2, q.end_ms ≤ p.1)) ∧
    (∀ p ∈ gPlace g r, p.2.Pairwise (fun a b => a.end_ms < b.start_ms)) := by
  induction g with
  | nil =>
    constructor
    · intro p hp
      simp only [gPlace, List.mem_singleton] at hp
      subst hp
      exact ⟨⟨r, by simp, rfl⟩, by simp⟩
    · intro p hp
      simp only [gPlace, List.mem_singleton] at hp
      subst hp
      exact List.pairwise_singleton _ _
  | cons vc cs ih =>
    obtain ⟨v, c⟩ := vc
    have h2c := h2 (v, c) (by simp)
    have h3c := h3 (v, c) (by simp)
    have h2r : ∀ p ∈ cs, (∃ q ∈ p.2, q.end_ms = p.1) ∧ (∀ q ∈ p.2, q.end_ms ≤ p.1) :=
      fun p hp => h2 p (List.mem_cons_of_mem _ hp)
    have h3r : ∀ p ∈ cs, p.2.Pairwise (fun a b => a.end_ms < b.start_ms) :=
      fun p hp => h3 p (List.mem_cons_of_mem _ hp)
    obtain ⟨ih2, ih3⟩ := ih h2r h3r
    unfold gPlace
    by_cases h : v < r.start_ms
    · rw [if_pos h]
      constructor
      · intro p hp
        rcases List.mem_cons.mp hp with rfl | hp
        · constructor
          · rcases le_total r.end_ms v with hvr | hvr
            · obtain ⟨⟨q, hq, hqe⟩, _⟩ := h2c
              refine ⟨q, List.mem_append_left _ hq, ?_⟩
              simp only [hqe]
              exact (max_eq_left hvr).symm
            · refine ⟨r, List.mem_append_right _ (by simp), ?_⟩
              exact (max_eq_right hvr).symm
          · intro q hq
            rcases List.mem_append.mp hq with hq' | hq'
            · exact le_trans (h2c.2 q hq') (le_max_left _ _)
            · rw [List.mem_singleton] at hq'
              subst hq'
              exact le_max_right _ _
        · exact h2r p hp
      · intro p hp
        rcases List.mem_cons.mp hp with rfl | hp
        · rw [List.pairwise_append]
          refine ⟨h3c, List.pairwise_singleton _ _, ?_⟩
          intro a ha b hb
          rw [List.mem_singleton] at hb
          subst hb
          exact lt_of_le_of_lt (h2c.2 a ha) h
        · exact h3r p hp
    · rw [if_neg h]
      constructor
      · intro p hp
        rcases List.mem_cons.mp hp with rfl | hp
        · exact h2c
        · exact ih2 p hp
      · intro p hp
        rcases List.mem_cons.mp hp with rfl | hp
        · exact h3c
        · exact ih3 p hp

theorem gPlace_length_cases :
    ∀ (g : List (Int × List VEvent)) (r : VEvent),
      (gPlace g r).length = g.length ∨
      (gPlace g r = g ++ [(r.end_ms, [r])] ∧ ∀ p ∈ g, r.start_ms ≤ p.1)
  | [], r => Or.inr ⟨rfl, by simp⟩
  | (v, c) :: cs, r => by
    unfold gPlace
    by_cases h : v < r.start_ms
    · rw [if_pos h]
      left
      simp
    · rw [if_neg h]
      rcases gPlace_length_cases cs r with h1 | ⟨h1, h2⟩
      · left
        simp [h1]
      · right
        constructor
        · rw [h1]
          rfl
        · intro p hp
          rcases List.mem_cons.mp hp with rfl | hp
          · exact le_of_not_lt h
          · exact h2 p hp

theorem openCount_le_one (c : List VEvent)
    (hpw : c.Pairwise (fun a b => a.end_ms < b.start_ms)) (t : Int) :
    openCount c t ≤ 1 := by
  induction c with
  | nil => simp [openCount]
  | cons q rest ih =>
    rcases List.pairwise_cons.mp hpw with ⟨hq, hrest⟩
    unfold openCount at ih ⊢
    rw [List.countP_cons]
    by_cases hopen : (decide (q.start_ms ≤ t) && decide (t ≤ q.end_ms)) = true
    · have hzero : rest.countP (fun r => decide (r.start_ms ≤ t) && decide (t ≤ r.end_ms)) = 0 := by
        rw [List.countP_eq_zero]
        intro x hx
        rw [Bool.and_eq_true, decide_eq_true_eq, decide_eq_true_eq] at hopen
        intro hcx
        rw [Bool.and_eq_true, decide_eq_true_eq, decide_eq_true_eq] at hcx
        have := hq x hx
        omega
      rw [hzero]
      simp [hopen]
    · rw [Bool.eq_false_iff.mpr hopen]
      simpa using ih hrest

theorem sum_le_length (l : List Nat) (h : ∀ x ∈ l, x ≤ 1) : l.sum ≤ l.length := by
  induction l with
  | nil => simp
  | cons a rest ih =>
    rw [List.sum_cons, List.length_cons]
    have h1 := h a (by simp)
    have h2 := ih (fun x hx => h x (List.mem_cons_of_mem _ hx))
    omega

theorem length_le_sum (l : List Nat) (h : ∀ x ∈ l, 1 ≤ x) : l.length ≤ l.sum := by
  induction l with
  | nil => simp
  | cons a rest ih =>
    rw [List.sum_cons, List.length_cons]
    have h1 := h a (by simp)
    have h2 := ih (fun x hx => h x (List.mem_cons_of_mem _ hx))
    omega

theorem openCount_eq_sum (done : List VEvent) (g : List (Int × List VEvent))
    (hperm : ((g.map Prod.snd).flatten).Perm done) (t : Int) :
    openCount done t = ((g.map Prod.snd).map
      (fun c => openCount c t)).sum := by
  unfold openCount
  rw [← hperm.countP_eq]
  rw [List.countP_flatten]

theorem greedy_inv :
    ∀ (rs done : List VEvent) (g : List (Int × List VEvent)),
      (∀ q ∈ done ++ rs, q.start_ms ≤ q.end_ms) →
      (∀ q ∈ done, ∀ r' ∈ rs, q.start_ms ≤ r'.start_ms) →
      rs.Pairwise (fun a b => a.start_ms ≤ b.start_ms) →
      colInv done g →
      colInv (done ++ rs) (rs.foldl gPlace g)
  | [], done, g, _, _, _, hinv => by simpa using hinv
  | r :: rs, done, g, hwf, hdr, hpw, hinv => by
    obtain ⟨hperm, h2, h3, ⟨t0, ht0⟩⟩ := hinv
    rcases List.pairwise_cons.mp hpw with ⟨hhead, htail⟩
    have hrwf : r.start_ms ≤ r.end_ms := hwf r (by simp)
    have hperm' : (((gPlace g r).map Prod.snd).flatten).Perm (done ++ [r]) := by
      refine (gPlace_flatten_perm g r).trans ?_
      exact (hperm.cons r).trans (List.perm_append_singleton r done).symm
    have hcols := gPlace_cols g r h2 h3
    have hiv : ∃ t : Int, (gPlace g r).length ≤ openCount (done ++ [r]) t := by
      rcases gPlace_length_cases g r with hlen | ⟨heq, hge⟩
      · refine ⟨t0, ?_⟩
        rw [hlen]
        have hmono : openCount done t0 ≤ openCount (done ++ [r]) t0 := by
          unfold openCount
          rw [List.countP_append]
          omega
        omega
      · refine ⟨r.start_ms, ?_⟩
        rw [heq, List.length_append]
        have hsum := openCount_eq_sum done g hperm r.start_ms
        have hever : ∀ x ∈ (g.map Prod.snd).map (fun c => openCount c r.start_ms), 1 ≤ x := by
          intro x hx
          rcases List.mem_map.mp hx with ⟨c, hc, rfl⟩
          rcases List.mem_map.mp hc with ⟨p, hp, rfl⟩
          obtain ⟨⟨q, hq, hqe⟩, _⟩ := h2 p hp
          have hqdone : q ∈ done := by
            refine hperm.subset ?_
            rw [List.mem_flatten]
            exact ⟨p.2, List.mem_map_of_mem _ hp, hq⟩
          have hqs : q.start_ms ≤ r.start_ms := hdr q hqdone r (by simp)
          have hqend : r.start_ms ≤ q.end_ms := by
            rw [hqe]
            exact hge p hp
          have hpos : 0 < openCount p.2 r.start_ms := by
            unfold openCount
            refine List.countP_pos_iff.mpr ⟨q, hq, ?_⟩
            rw [Bool.and_eq_true]
            exact ⟨decide_eq_true hqs, decide_eq_true hqend⟩
          omega
        have hlensum := length_le_sum _ hever
        have hmaplen : ((g.map Prod.snd).map (fun c => openCount c r.start_ms)).length
            = g.length := by simp
        have hsplit : openCount (done ++ [r]) r.start_ms
            = openCount done r.start_ms + openCount [r] r.start_ms := by
          unfold openCount
          rw [List.countP_append]
        have hr_open : openCount [r] r.start_ms = 1 := by
          unfold openCount
          simp [hrwf]
        simp only [List.length_singleton]
        omega
    have hres := greedy_inv rs (done ++ [r]) (gPlace g r)
      (by
        intro q hq
        apply hwf
        rw [List.append_assoc] at hq
        simpa using hq)
      (by
        intro q hq r' hr'
        rcases List.mem_append.mp hq with hq' | hq'
        · exact hdr q hq' r' (List.mem_cons_of_mem _ hr')
        · rw [List.mem_singleton] at hq'
          subst hq'
          exact hhead r' hr')
      htail
      ⟨hperm', hcols.1, hcols.2, hiv⟩
    rw [List.foldl_cons]
    have hassoc : done ++ r :: rs = (done ++ [r]) ++ rs := by simp
    rw [hassoc]
    exact hres

theorem vRangeLe_total (a b : VEvent) : vRangeLe a b = true ∨ vRangeLe b a = true := by
  unfold vRangeLe
  rcases le_total (vRangeKey a) (vRangeKey b) with h | h
  · exact Or.inl (decide_eq_true h)
  · exact Or.inr (decide_eq_true h)

theorem vRangeLe_trans (a b c : VEvent) (hab : vRangeLe a b = true)
    (hbc : vRangeLe b c = true) : vRangeLe a c = true :=
  decide_eq_true (le_trans (of_decide_eq_true hab) (of_decide_eq_true hbc))

theorem vRangeLe_start {a b : VEvent} (h : vRangeLe a b = true) :
    a.start_ms ≤ b.start_ms := by
  unfold vRangeLe vRangeKey at h
  have hle := of_decide_eq_true h
  rcases (Prod.Lex.le_iff (a.start_ms, a.end_ms) (b.start_ms, b.end_ms)).mp hle with
    hlt | hrest
  · exact le_of_lt hlt
  · exact le_of_eq hrest.1

/-- C4 is false as stated: `timeline_vertical.py` builds its payload
without applying the overnight end normalization, so an overnight row
reaches the greedy as a range whose end precedes its start. Such a range
still occupies one wrapper column, yet under the boundary-inclusive
definition it is open at no instant — the column count (1) is not the
maximum number of simultaneously open ranges (0). -/
theorem c4_counterexample :
    numWrapCols [⟨"0", 10, 5, true⟩] = 1 ∧
    ¬ ∃ t : Int, openCount
        (([⟨"0", 10, 5, true⟩] : List VEvent).filter (fun e => e.is_range)) t =
      numWrapCols [⟨"0", 10, 5, true⟩] := by
  refine ⟨by decide, ?_⟩
  rintro ⟨t, ht⟩
  have hfil : ([⟨"0", 10, 5, true⟩] : List VEvent).filter (fun e => e.is_range)
      = [⟨"0", 10, 5, true⟩] := by decide
  have hnum : numWrapCols [(⟨"0", 10, 5, true⟩ : VEvent)] = 1 := by decide
  rw [hfil, hnum] at ht
  have hzero : openCount [(⟨"0", 10, 5, true⟩ : VEvent)] t = 0 := by
    unfold openCount
    rw [List.countP_eq_zero]
    intro x hx
    rw [List.mem_singleton] at hx
    subst hx
    intro hp
    rw [Bool.and_eq_true, decide_eq_true_eq, decide_eq_true_eq] at hp
    have h10 : (10 : Int) ≤ t := hp.1
    have h5 : t ≤ (5 : Int) := hp.2
    omega
  omega

/-- C4 (amended): restricted to well-formed range intervals (start not
after end, which the greedy receives whenever the overnight normalization
of §3 has been applied), the number of wrapper columns produced by the
greedy assignment in the vertical layout equals the maximum number of
ranges simultaneously open at any instant, under the boundary-inclusive
overlap definition. -/
theorem c4_wrapper_columns (input : List VEvent)
    (hwf : ∀ e ∈ input, e.is_range = true → e.start_ms ≤ e.end_ms) :
    (∀ t : Int, openCount (input.filter (fun e => e.is_range)) t ≤ numWrapCols input) ∧
    (∃ t : Int, openCount (input.filter (fun e => e.is_range)) t = numWrapCols input) := by
  have hperm1 : (vRangesSorted input).Perm (input.filter (fun e => e.is_range)) := by
    unfold vRangesSorted vEvs
    refine (sortBy_perm vRangeLe _).trans ?_
    exact (sortBy_perm jsLe input).filter _
  have hwfr : ∀ q ∈ vRangesSorted input, q.start_ms ≤ q.end_ms := by
    intro q hq
    have hmem := hperm1.subset hq
    rcases List.mem_filter.mp hmem with ⟨hmem', hrange⟩
    exact hwf q hmem' hrange
  have hpw : (vRangesSorted input).Pairwise (fun a b => a.start_ms ≤ b.start_ms) := by
    refine List.Pairwise.imp ?_
      (pairwise_sortBy vRangeLe vRangeLe_total vRangeLe_trans _)
    exact fun h => vRangeLe_start h
  have hinv0 : colInv [] [] := by
    refine ⟨by simp, by simp, by simp, ⟨0, ?_⟩⟩
    simp [openCount]
  have hinv := greedy_inv (vRangesSorted input) [] []
    (by simpa using hwfr) (by simp) hpw hinv0
  rw [List.nil_append] at hinv
  obtain ⟨hperm, h2, h3, ⟨t1, ht1⟩⟩ := hinv
  have hlen : numWrapCols input = ((vRangesSorted input).foldl gPlace []).length := by
    unfold numWrapCols colEnds
    have h := foldl_gPlace_fst (vRangesSorted input) []
    simp only [List.map_nil] at h
    rw [← h, List.length_map]
  have hub : ∀ t : Int, openCount (vRangesSorted input) t ≤ numWrapCols input := by
    intro t
    rw [openCount_eq_sum _ _ hperm t, hlen]
    have hle1 : ∀ x ∈ (((vRangesSorted input).foldl gPlace []).map Prod.snd).map
        (fun c => openCount c t), x ≤ 1 := by
      intro x hx
      rcases List.mem_map.mp hx with ⟨c, hc, rfl⟩
      rcases List.mem_map.mp hc with ⟨p, hp, rfl⟩
      exact openCount_le_one p.2 (h3 p hp) t
    have hs := sum_le_length _ hle1
    simpa using hs
  have hcount : ∀ t : Int, openCount (input.filter (fun e => e.is_range)) t
      = openCount (vRangesSorted input) t := by
    intro t
    unfold openCount
    exact (hperm1.countP_eq _).symm
  constructor
  · intro t
    rw [hcount t]
    exact hub t
  · refine ⟨t1, ?_⟩
    rw [hcount t1]
    have hupper := hub t1
    have hlower : numWrapCols input ≤ openCount (vRangesSorted input) t1 := by
      rw [hlen]
      exact ht1
    omega

theorem c4_wrapper_columns_witness :
    ((∀ t : Int, openCount
        (([⟨"0", 0, 10, true⟩, ⟨"1", 5, 20, true⟩, ⟨"2", 10, 30, true⟩,
           ⟨"3", 21, 40, true⟩] : List VEvent).filter (fun e => e.is_range)) t ≤
        numWrapCols [⟨"0", 0, 10, true⟩, ⟨"1", 5, 20, true⟩, ⟨"2", 10, 30, true⟩,
           ⟨"3", 21, 40, true⟩]) ∧
      (∃ t : Int, openCount
        (([⟨"0", 0, 10, true⟩, ⟨"1", 5, 20, true⟩, ⟨"2", 10, 30, true⟩,
           ⟨"3", 21, 40, true⟩] : List VEvent).filter (fun e => e.is_range)) t =
        numWrapCols [⟨"0", 0, 10, true⟩, ⟨"1", 5, 20, true⟩, ⟨"2", 10, 30, true⟩,
           ⟨"3", 21, 40, true⟩])) ∧
    numWrapCols [⟨"0", 0, 10, true⟩, ⟨"1", 5, 20, true⟩, ⟨"2", 10, 30, true⟩,
       ⟨"3", 21, 40, true⟩] = 3 :=
  ⟨c4_wrapper_columns
      [⟨"0", 0, 10, true⟩, ⟨"1", 5, 20, true⟩, ⟨"2", 10, 30, true⟩, ⟨"3", 21, 40, true⟩]
      (by decide),
   by decide⟩

end Koekoek
